import Mathlib

/-
  Shallow embedding of go-i2p/go-gh-page.

  Strings are modelled as Lean `String` (a list of characters); Go's
  byte-level operations on UTF-8 strings coincide with the character-level
  model on the code-point level, since UTF-8 order equals code-point order.
  Path helpers from Go's `path/filepath` (Base, Dir, Ext, Clean, Join for
  slash-separated paths) are implemented faithfully at the character level.
-/

namespace GoGhPage

/-- ASCII lower-casing of one character, the ASCII fragment of Go's
`strings.ToLower` (all strings handled by the claims are ASCII). -/
def goToLower (c : Char) : Char :=
  if 'A' ≤ c ∧ c ≤ 'Z' then Char.ofNat (c.toNat + 32) else c

/-- ASCII upper-casing of one character, the ASCII fragment of Go's
`strings.ToUpper` applied to a one-character string. -/
def goToUpper (c : Char) : Char :=
  if 'a' ≤ c ∧ c ≤ 'z' then Char.ofNat (c.toNat - 32) else c

/-- Go `strings.ToLower`, character-wise. -/
def lowerCh (l : List Char) : List Char := l.map goToLower

/-- Go's built-in string comparison `<`: byte-wise lexicographic order,
which on UTF-8 strings equals code-point lexicographic order. -/
def goStrLt : List Char → List Char → Bool
  | [], [] => false
  | [], _ :: _ => true
  | _ :: _, [] => false
  | a :: as, b :: bs => if a < b then true else if b < a then false else goStrLt as bs

/-- Go `strings.HasPrefix`. -/
def hasPrefixCh (l p : List Char) : Bool := p.isPrefixOf l

/-- Go `strings.HasSuffix`. -/
def hasSuffixCh (l s : List Char) : Bool := s.isSuffixOf l

/-- Go `strings.TrimSuffix`. -/
def trimSuffixCh (l s : List Char) : List Char :=
  if hasSuffixCh l s then l.take (l.length - s.length) else l

/-- Split on the separator character, the semantics of `strings.Split`
with a one-character separator (as used by `filepath` internals). -/
def splitSlash : List Char → List (List Char)
  | [] => [[]]
  | c :: cs =>
    if c = '/' then [] :: splitSlash cs
    else
      match splitSlash cs with
      | [] => [[c]]
      | h :: t => (c :: h) :: t

/-- Join components with the separator character. -/
def joinSlash : List (List Char) → List Char
  | [] => []
  | [p] => p
  | p :: ps => p ++ '/' :: joinSlash ps

/-- One step of `path.Clean`: process a single path component against the
already-cleaned output. Empty and `.` components are dropped; `..` pops
the previous component unless the output is empty (kept for a relative
path, dropped for a rooted one) or itself ends in `..`. -/
def cleanStep (rooted : Bool) (out : List (List Char)) (p : List Char) : List (List Char) :=
  if p = [] ∨ p = ['.'] then out
  else if p = ['.', '.'] then
    match out.getLast? with
    | some q => if q = ['.', '.'] then out ++ [p] else out.dropLast
    | none => if rooted then [] else [p]
  else out ++ [p]

/-- Go `filepath.Clean` for slash-separated paths. -/
def goCleanCh (l : List Char) : List Char :=
  if l = [] then ['.']
  else
    let rooted := decide (l.head? = some '/')
    let cleaned := (splitSlash l).foldl (cleanStep rooted) []
    if rooted then '/' :: joinSlash cleaned
    else if cleaned = [] then ['.'] else joinSlash cleaned

/-- Strip trailing separator characters, as `filepath.Base` does first. -/
def dropTrailingSlashes (l : List Char) : List Char :=
  (l.reverse.dropWhile (fun c => c = '/')).reverse

/-- Go `filepath.Base`. -/
def goBaseCh (l : List Char) : List Char :=
  if l = [] then ['.']
  else
    let l2 := dropTrailingSlashes l
    if l2 = [] then ['/']
    else (l2.reverse.takeWhile (fun c => ¬ (c = '/'))).reverse

/-- Go `filepath.Dir`: everything up to and including the final separator,
cleaned; `.` when there is no separator. -/
def goDirCh (l : List Char) : List Char :=
  let pre := (l.reverse.dropWhile (fun c => ¬ (c = '/'))).reverse
  if pre = [] then ['.'] else goCleanCh pre

/-- Go `filepath.Ext`: the suffix starting at the final dot in the final
path element, empty if there is none. -/
def goExtCh (l : List Char) : List Char :=
  let r := l.reverse.takeWhile (fun c => ¬ (c = '/'))
  if r.contains '.' then ((r.takeWhile (fun c => ¬ (c = '.'))) ++ ['.']).reverse
  else []

/-- Go `filepath.Join`: drop leading empty elements, join the rest with the
separator, and clean. -/
def goJoinCh (elems : List (List Char)) : List Char :=
  let ne := elems.dropWhile (fun e => e.isEmpty)
  if ne = [] then [] else goCleanCh (joinSlash ne)

namespace Utils

/-- utils.GetOutputPath: convert a markdown file path to its HTML output
path, replacing the extension with `.html` and preserving the directory
prefix unless the file sits at the root. -/
def GetOutputPath (path baseDir : String) : String :=
  let baseName := goBaseCh path.data
  let dir := goDirCh path.data
  let outName := trimSuffixCh baseName (goExtCh baseName) ++ ".html".data
  if dir = ['.'] then ⟨goJoinCh [baseDir.data, outName]⟩
  else ⟨goJoinCh [baseDir.data, dir, outName]⟩

/-- utils.isImageLink: the link's lower-cased target ends in an image
extension. -/
def isImageLink (link : String) : Bool :=
  [".jpg", ".jpeg", ".png", ".gif", ".svg", ".webp"].any
    (fun ext => hasSuffixCh (lowerCh link.data) ext.data)

/-- utils.isMarkdownLink: the link's lower-cased target ends in a markdown
extension. -/
def isMarkdownLink (link : String) : Bool :=
  [".md", ".markdown", ".mdown", ".mkdn"].any
    (fun ext => hasSuffixCh (lowerCh link.data) ext.data)

end Utils

/-- The in-line relative-reference resolution shared by
utils.ProcessRelativeLinks and generator.processImageLinks: a rooted
reference has its leading slash stripped; otherwise a leading `./` is
stripped and the result is joined against the document's directory unless
that directory is the root. -/
def resolveCore (baseDir reference : List Char) : List Char :=
  if hasPrefixCh reference "/".data then reference.drop 1
  else
    let r := if hasPrefixCh reference "./".data then reference.drop 2 else reference
    if baseDir = ['.'] then r else goJoinCh [baseDir, r]

/-- The relative-reference resolution of the rewriter as a function of the
referencing document, spec section 4.1: external URLs and pure anchors are
returned unchanged, everything else goes through `resolveCore` against the
directory of the referencing document. -/
def resolveRelative (reference fromDocPath : String) : String :=
  if hasPrefixCh reference.data "http".data || hasPrefixCh reference.data "#".data then
    reference
  else ⟨resolveCore (goDirCh fromDocPath.data) reference.data⟩

/-- Split a link target at the first `#`, Go's
`strings.Index(linkTarget, "#")` logic in ProcessRelativeLinks: the second
component is the anchor including `#`, empty when there is none. -/
def splitAnchor (target : List Char) : List Char × List Char :=
  (target.takeWhile (fun c => ¬ (c = '#')), target.dropWhile (fun c => ¬ (c = '#')))

/-- The text of a markdown link occurrence, as the replacement callback
reconstructs it when it leaves a match unchanged. -/
def mkLinkCh (text target : List Char) : List Char :=
  '[' :: text ++ ']' :: '(' :: target ++ [')']

/-- The text of an image embed occurrence. -/
def mkEmbedCh (alt target : List Char) : List Char :=
  '!' :: '[' :: alt ++ ']' :: '(' :: target ++ [')']

/-- Anchored match of the markdown-link pattern (regexp
`\[([^\]]+)\]\(([^)]+)\)`) at the head of the text: bracketed non-empty
`]`-free text, then `](`, then non-empty `)`-free target, then `)`.
Returns text, target and the remaining input. -/
def matchLinkAt : List Char → Option (List Char × List Char × List Char)
  | c :: r =>
    if c = '[' then
      match r.dropWhile (fun x => ¬ (x = ']')) with
      | b1 :: b2 :: r2 =>
        if b1 = ']' ∧ b2 = '(' then
          match r2.dropWhile (fun x => ¬ (x = ')')) with
          | b3 :: rest =>
            if b3 = ')' then
              let t := r.takeWhile (fun x => ¬ (x = ']'))
              let u := r2.takeWhile (fun x => ¬ (x = ')'))
              if t = [] ∨ u = [] then none else some (t, u, rest)
            else none
          | [] => none
        else none
      | _ => none
    else none
  | [] => none

/-- Anchored match of the image-embed pattern (regexp
`!\[([^\]]*)\]\(([^)]+)\)`, utils.GetImageLinkRegex) at the head of the
text: the alt text may be empty, the target may not. -/
def matchImageAt : List Char → Option (List Char × List Char × List Char)
  | c0 :: c1 :: r =>
    if c0 = '!' ∧ c1 = '[' then
      match r.dropWhile (fun x => ¬ (x = ']')) with
      | b1 :: b2 :: r2 =>
        if b1 = ']' ∧ b2 = '(' then
          match r2.dropWhile (fun x => ¬ (x = ')')) with
          | b3 :: rest =>
            if b3 = ')' then
              let u := r2.takeWhile (fun x => ¬ (x = ')'))
              if u = [] then none
              else some (r.takeWhile (fun x => ¬ (x = ']')), u, rest)
            else none
          | [] => none
        else none
      | _ => none
    else none
  | _ => none

/-- Leftmost-scan replacement of every markdown-link occurrence, the
semantics of `Regexp.ReplaceAllStringFunc`: try an anchored match at each
position, replace and continue after the match, otherwise copy one
character. The fuel argument only bounds recursion and is irrelevant as
soon as it is at least the input length. -/
def replaceLinksAux (f : List Char → List Char → List Char) :
    Nat → List Char → List Char
  | 0, l => l
  | _ + 1, [] => []
  | fuel + 1, c :: cs =>
    match matchLinkAt (c :: cs) with
    | some (t, u, rest) => f t u ++ replaceLinksAux f fuel rest
    | none => c :: replaceLinksAux f fuel cs

def replaceLinksCh (f : List Char → List Char → List Char) (l : List Char) : List Char :=
  replaceLinksAux f l.length l

/-- Leftmost-scan replacement of every image-embed occurrence. -/
def replaceImagesAux (f : List Char → List Char → List Char) :
    Nat → List Char → List Char
  | 0, l => l
  | _ + 1, [] => []
  | fuel + 1, c :: cs =>
    match matchImageAt (c :: cs) with
    | some (t, u, rest) => f t u ++ replaceImagesAux f fuel rest
    | none => c :: replaceImagesAux f fuel cs

def replaceImagesCh (f : List Char → List Char → List Char) (l : List Char) : List Char :=
  replaceImagesAux f l.length l

/-- Does any position of the text carry a markdown-link match? -/
def hasLinkMatchB : List Char → Bool
  | [] => false
  | c :: cs => (matchLinkAt (c :: cs)).isSome || hasLinkMatchB cs

/-- Does any position of the text carry an image-embed match? -/
def hasImageMatchB : List Char → Bool
  | [] => false
  | c :: cs => (matchImageAt (c :: cs)).isSome || hasImageMatchB cs

namespace Utils

/-- The replacement callback of utils.ProcessRelativeLinks for one matched
occurrence: external URLs, pure anchors, image targets and non-markdown
targets are returned unchanged; a markdown target has its anchor split
off, is resolved against the document's directory, mapped through
GetOutputPath under `docs`, prefixed with `../` and the anchor
reattached. -/
def processLinkMatch (baseDir : List Char) (text target : List Char) : List Char :=
  if hasPrefixCh target "http".data || hasPrefixCh target "#".data then
    mkLinkCh text target
  else if isImageLink ⟨target⟩ then mkLinkCh text target
  else if isMarkdownLink ⟨target⟩ then
    let ta := splitAnchor target
    let resolved := resolveCore baseDir ta.1
    '[' :: text ++ ']' :: '(' ::
      ("../".data ++ (GetOutputPath ⟨resolved⟩ "docs").data ++ ta.2) ++ [')']
  else mkLinkCh text target

/-- utils.ProcessRelativeLinks. The owner and repo arguments are unused in
the source as well. -/
def ProcessRelativeLinks (content filePath _owner _repo : String) : String :=
  let baseDir := goDirCh filePath.data
  ⟨replaceLinksCh (processLinkMatch baseDir) content.data⟩

/-- Whitespace characters of RE2's Perl class backslash-s. -/
def goIsSpace (c : Char) : Bool :=
  c = ' ' || c = '\t' || c = '\n' || c = '\x0c' || c = '\r'

/-- Backtracking over the greedy whitespace run: find the largest number k
of whitespace characters (at least one) such that a non-newline character
follows, and return the maximal non-newline run from there — the group of
`#\s+(.+)$` on this line. -/
def titleScan (r : List Char) : Nat → Option (List Char)
  | 0 => none
  | k + 1 =>
    match r.drop (k + 1) with
    | c :: rest =>
      if c = '\n' then titleScan r k
      else some ((c :: rest).takeWhile (fun x => ¬ (x = '\n')))
    | [] => titleScan r k

/-- Anchored match of `#\s+(.+)$` at a line start. -/
def titleGroupAt : List Char → Option (List Char)
  | '#' :: r => titleScan r (r.takeWhile goIsSpace).length
  | _ => none

/-- Leftmost search for the multiline pattern `^#\s+(.+)$`: only positions
at the start of a line are candidates. -/
def findTitle : Bool → List Char → Option (List Char)
  | _, [] => none
  | atStart, c :: cs =>
    match (if atStart then titleGroupAt (c :: cs) else none) with
    | some t => some t
    | none => findTitle (c = '\n') cs

/-- utils.GetTitleFromMarkdown: the first-heading text, or empty. -/
def GetTitleFromMarkdown (content : String) : String :=
  match findTitle true content.data with
  | some t => ⟨t⟩
  | none => ""

/-- Go `strings.Fields`: maximal runs of non-whitespace characters. -/
def fieldsAux : List Char → List Char → List (List Char)
  | acc, [] => if acc.isEmpty then [] else [acc.reverse]
  | acc, c :: cs =>
    if goIsSpace c then
      if acc.isEmpty then fieldsAux [] cs else acc.reverse :: fieldsAux [] cs
    else fieldsAux (c :: acc) cs

def fieldsCh (l : List Char) : List (List Char) := fieldsAux [] l

/-- Capitalize the first character of a word, Go's
`strings.ToUpper(word[0:1]) + word[1:]`. -/
def capitalizeWord (w : List Char) : List Char :=
  match w with
  | [] => []
  | c :: cs => goToUpper c :: cs

def joinSpace : List (List Char) → List Char
  | [] => []
  | [w] => w
  | w :: ws => w ++ ' ' :: joinSpace ws

/-- utils.PrettifyFilename: strip the extension, turn hyphens and
underscores into spaces, capitalize each word. -/
def PrettifyFilename (filename : String) : String :=
  let name := trimSuffixCh filename.data (goExtCh filename.data)
  let name := name.map (fun c => if c = '-' || c = '_' then ' ' else c)
  ⟨joinSpace ((fieldsCh name).map capitalizeWord)⟩

/-- utils.DocPage: one navigation entry. -/
structure DocPage where
  title : String
  path : String
  isActive : Bool
deriving DecidableEq

end Utils

/-- One conditional exchange of the bubble-sort routines: swap the entries
at indices i and j when the swap condition holds of them. -/
def exchangeSwap {α : Type} (gt : α → α → Bool) (d : α) (l : List α) (i j : Nat) : List α :=
  if gt (l.getD i d) (l.getD j d) then (l.set i (l.getD j d)).set j (l.getD i d) else l

/-- The inner loop `for j := i+1; j < len; j++`, fuel-bounded. -/
def innerPass {α : Type} (gt : α → α → Bool) (d : α) :
    Nat → List α → Nat → Nat → List α
  | 0, l, _, _ => l
  | fuel + 1, l, i, j =>
    if j < l.length then innerPass gt d fuel (exchangeSwap gt d l i j) i (j + 1) else l

/-- The outer loop `for i := 0; i < len; i++`, fuel-bounded. -/
def outerPass {α : Type} (gt : α → α → Bool) (d : α) :
    Nat → List α → Nat → List α
  | 0, l, _ => l
  | fuel + 1, l, i =>
    if i < l.length then outerPass gt d fuel (innerPass gt d l.length l i (i + 1)) (i + 1)
    else l

/-- The exchange sort shared by utils.SortDocPagesByTitle and
git.sortContributorsByCommits: the list length bounds both loop counters,
so it is enough fuel. -/
def exchangeSort {α : Type} (gt : α → α → Bool) (d : α) (l : List α) : List α :=
  outerPass gt d l.length l 0

namespace Utils

/-- The swap condition of utils.SortDocPagesByTitle:
`pages[i].Title > pages[j].Title` in Go's byte order. -/
def docPageGt (a b : DocPage) : Bool := goStrLt b.title.data a.title.data

/-- utils.SortDocPagesByTitle. -/
def SortDocPagesByTitle (pages : List DocPage) : List DocPage :=
  exchangeSort docPageGt ⟨"", "", false⟩ pages

end Utils

namespace Git

/-- git.Contributor. -/
structure Contributor where
  name : String
  email : String
  commits : Int
  avatarURL : String
deriving DecidableEq

/-- The swap condition of git.sortContributorsByCommits:
`contributors[i].Commits < contributors[j].Commits`. -/
def contributorGt (a b : Contributor) : Bool := decide (a.commits < b.commits)

/-- git.sortContributorsByCommits. -/
def sortContributorsByCommits (cs : List Contributor) : List Contributor :=
  exchangeSort contributorGt ⟨"", "", 0, ""⟩ cs

/-- The contributor post-processing of git.GetRepositoryData: sort by
commit count and keep at most the top five. -/
def topContributors (cs : List Contributor) : List Contributor :=
  let s := sortContributorsByCommits cs
  if 5 < s.length then s.take 5 else s

/-- git.isMarkdownFile. -/
def isMarkdownFile (filename : String) : Bool :=
  [".md", ".markdown", ".mdown", ".mkdn"].any
    (fun ext => hasSuffixCh (lowerCh filename.data) ext.data)

/-- git.isReadmeFile: a README is a markdown file whose lower-cased name
starts with `readme.`. -/
def isReadmeFile (filename : String) : Bool :=
  hasPrefixCh (lowerCh filename.data) "readme.".data && isMarkdownFile filename

end Git

namespace Generator

/-- generator.isReadmeFile: unlike the git package's test, only the
`readme.` prefix is required. -/
def isReadmeFile (filename : String) : Bool :=
  hasPrefixCh (lowerCh filename.data) "readme.".data

/-- The replacement callback of generator.processImageLinks for one
matched embed: external URLs are returned unchanged, any other target is
resolved against the document's directory and flattened to
`../images/<basename>`. -/
def processImageMatch (baseDir : List Char) (alt target : List Char) : List Char :=
  if hasPrefixCh target "http".data then mkEmbedCh alt target
  else
    '!' :: '[' :: alt ++ ']' :: '(' ::
      ("../images/".data ++ goBaseCh (resolveCore baseDir target)) ++ [')']

/-- generator.processImageLinks. -/
def processImageLinks (content filePath : String) : String :=
  let baseDir := goDirCh filePath.data
  ⟨replaceImagesCh (processImageMatch baseDir) content.data⟩

/-- The title derivation of generator.generateDocPage and GenerateSite:
first heading, falling back to the prettified base filename. -/
def titleForDoc (path content : String) : String :=
  let t := Utils.GetTitleFromMarkdown content
  if t = "" then Utils.PrettifyFilename ⟨goBaseCh path.data⟩ else t

/-- The navigation construction of generator.GenerateSite: one entry per
non-README document, sorted by title. -/
def buildNav (docs : List (String × String)) : List Utils.DocPage :=
  Utils.SortDocPagesByTitle
    (docs.filterMap (fun pc =>
      if isReadmeFile ⟨goBaseCh pc.1.data⟩ then none
      else some ⟨titleForDoc pc.1 pc.2, Utils.GetOutputPath pc.1 "docs", false⟩))

/-- The per-page copy of generator.generateDocPage: flag as active every
entry whose path equals the page's output path. -/
def markActive (docsPages : List Utils.DocPage) (outputPath : String) : List Utils.DocPage :=
  docsPages.map (fun pg => if pg.path = outputPath then { pg with isActive := true } else pg)

def countActive (pages : List Utils.DocPage) : Nat :=
  (pages.filter (fun pg => pg.isActive)).length

/-- The document-side outcome of generator.GenerateSite: the navigation
list, the generated doc pages (output path together with the rewritten
markdown handed to the renderer) and the DocsCount. -/
structure SiteModel where
  navPages : List Utils.DocPage
  pages : List (String × String)
  docsCount : Nat

/-- The page generation of generator.generateDocPage for one document:
output path and the content after both rewriting passes. -/
def pageFor (owner repo p c : String) : String × String :=
  (Utils.GetOutputPath p "docs",
   processImageLinks (Utils.ProcessRelativeLinks c p owner repo) p)

/-- generator.GenerateSite restricted to its document processing: README
files are skipped both for navigation and for page generation, and
DocsCount counts one per generated page. -/
def generateSiteCore (owner repo : String) (docs : List (String × String)) : SiteModel :=
  let gen := docs.filter (fun pc => !(isReadmeFile ⟨goBaseCh pc.1.data⟩))
  { navPages := buildNav docs
  , pages := gen.map (fun pc => pageFor owner repo pc.1 pc.2)
  , docsCount := gen.length }

end Generator

/-- A clean path component: non-empty, not a dot component, and free of
separators. Snapshot paths are produced by `filepath.Rel` and consist of
such components. -/
def CleanComp (p : List Char) : Prop :=
  p ≠ [] ∧ p ≠ ['.'] ∧ p ≠ ['.', '.'] ∧ '/' ∉ p

instance (p : List Char) : Decidable (CleanComp p) := by
  unfold CleanComp; infer_instance

/-- The slash-joined path made of the given components. -/
def pathOfParts (ps : List String) : String :=
  ⟨joinSlash (ps.map String.data)⟩

/-- The output filename for a source filename: extension replaced by
`.html`, the filename step of GetOutputPath. -/
def htmlName (f : String) : String :=
  ⟨trimSuffixCh f.data (goExtCh f.data) ++ ".html".data⟩

end GoGhPage

open GoGhPage in
example : Utils.GetOutputPath "d/f.md" "docs" = "docs/d/f.html" := by decide

open GoGhPage in
example : Utils.GetOutputPath "f.md" "docs" = "docs/f.html" := by decide

open GoGhPage in
example : Utils.GetOutputPath "a/b/c.markdown" "docs" = "docs/a/b/c.html" := by decide

open GoGhPage in
example : goCleanCh "docs/sub/../assets/d.png".data = "docs/assets/d.png".data := by decide

open GoGhPage in
example : Utils.isImageLink "../assets/d.PNG" = true := by decide

open GoGhPage in
example :
    Utils.ProcessRelativeLinks "see [Guide](./guide.md) now" "docs/intro.md" "o" "r"
      = "see [Guide](../docs/docs/guide.html) now" := by decide

open GoGhPage in
example :
    Utils.ProcessRelativeLinks "see [Guide](./guide.md) now" "intro.md" "o" "r"
      = "see [Guide](../docs/guide.html) now" := by decide

open GoGhPage in
example :
    Utils.ProcessRelativeLinks "[Guide](./guide.md#setup)" "docs/intro.md" "o" "r"
      = "[Guide](./guide.md#setup)" := by decide

open GoGhPage in
example :
    Generator.processImageLinks "![diagram](../assets/d.png)" "docs/sub/page.md"
      = "![diagram](../images/d.png)" := by decide

open GoGhPage in
example : resolveRelative "./x.md" "a/b/readme.md" = "a/b/x.md" := by decide

open GoGhPage in
example : Utils.GetTitleFromMarkdown "intro\n# My Title\ntext" = "My Title" := by decide

open GoGhPage in
example : Utils.PrettifyFilename "my-file_name.md" = "My File Name" := by decide

open GoGhPage in
example :
    Utils.SortDocPagesByTitle [⟨"b", "p1", false⟩, ⟨"a", "p2", false⟩, ⟨"a2", "p3", false⟩]
      = [⟨"a", "p2", false⟩, ⟨"a2", "p3", false⟩, ⟨"b", "p1", false⟩] := by decide

open GoGhPage in
example :
    Git.topContributors [⟨"a", "a@", 2, ""⟩, ⟨"b", "b@", 2, ""⟩, ⟨"c", "c@", 3, ""⟩]
      = [⟨"c", "c@", 3, ""⟩, ⟨"b", "b@", 2, ""⟩, ⟨"a", "a@", 2, ""⟩] := by decide

namespace GoGhPage

/- List scanning helpers used throughout the path and rewriting proofs. -/

theorem takeWhile_all {α : Type} {p : α → Bool} :
    ∀ {l : List α}, (∀ c ∈ l, p c = true) → l.takeWhile p = l := by
  intro l h
  induction l with
  | nil => rfl
  | cons a t ih =>
    have ha : p a = true := h a (List.mem_cons_self a t)
    simp [List.takeWhile_cons, ha, ih fun c hc => h c (List.mem_cons_of_mem a hc)]

theorem dropWhile_all {α : Type} {p : α → Bool} :
    ∀ {l : List α}, (∀ c ∈ l, p c = true) → l.dropWhile p = [] := by
  intro l h
  induction l with
  | nil => rfl
  | cons a t ih =>
    have ha : p a = true := h a (List.mem_cons_self a t)
    simp [List.dropWhile_cons, ha, ih fun c hc => h c (List.mem_cons_of_mem a hc)]

theorem dropWhile_none {α : Type} {p : α → Bool} :
    ∀ {l : List α}, (∀ c ∈ l, p c = false) → l.dropWhile p = l := by
  intro l h
  induction l with
  | nil => rfl
  | cons a t _ =>
    have ha : p a = false := h a (List.mem_cons_self a t)
    simp [List.dropWhile_cons, ha]

theorem takeWhile_append_stop {α : Type} {p : α → Bool} {y : α} (hy : p y = false) :
    ∀ {xs : List α} (ys : List α), (∀ c ∈ xs, p c = true) →
      (xs ++ y :: ys).takeWhile p = xs := by
  intro xs ys h
  induction xs with
  | nil => simp [List.takeWhile_cons, hy]
  | cons a t ih =>
    have ha : p a = true := h a (List.mem_cons_self a t)
    simp [List.takeWhile_cons, ha]
    exact ih fun c hc => h c (List.mem_cons_of_mem a hc)

theorem dropWhile_append_stop {α : Type} {p : α → Bool} {y : α} (hy : p y = false) :
    ∀ {xs : List α} (ys : List α), (∀ c ∈ xs, p c = true) →
      (xs ++ y :: ys).dropWhile p = y :: ys := by
  intro xs ys h
  induction xs with
  | nil => simp [List.dropWhile_cons, hy]
  | cons a t ih =>
    have ha : p a = true := h a (List.mem_cons_self a t)
    simp [List.dropWhile_cons, ha]
    exact ih fun c hc => h c (List.mem_cons_of_mem a hc)

theorem mem_of_mem_takeWhile {α : Type} {p : α → Bool} :
    ∀ {l : List α} {x : α}, x ∈ l.takeWhile p → p x = true := by
  intro l
  induction l with
  | nil => intro x hx; simp [List.takeWhile] at hx
  | cons a t ih =>
    intro x hx
    rw [List.takeWhile_cons] at hx
    by_cases ha : p a = true
    · simp [ha] at hx
      rcases hx with hx | hx
      · exact hx ▸ ha
      · exact ih hx
    · simp [Bool.not_eq_true] at ha
      simp [ha] at hx

theorem head?_append_left {α : Type} {a : List α} (b : List α) (h : a ≠ []) :
    (a ++ b).head? = a.head? := by
  cases a with
  | nil => exact absurd rfl h
  | cons x t => rfl

/- splitSlash and joinSlash structure. -/

theorem splitSlash_no_slash : ∀ {p : List Char}, '/' ∉ p → splitSlash p = [p] := by
  intro p h
  induction p with
  | nil => rfl
  | cons c cs ih =>
    have hc : ¬ (c = '/') := fun hc => h (hc ▸ List.mem_cons_self c cs)
    have ih2 := ih fun hm => h (List.mem_cons_of_mem c hm)
    simp [splitSlash, hc, ih2]

theorem splitSlash_append {p : List Char} (r : List Char) (h : '/' ∉ p) :
    splitSlash (p ++ '/' :: r) = p :: splitSlash r := by
  induction p with
  | nil => simp [splitSlash]
  | cons c cs ih =>
    have hc : ¬ (c = '/') := fun hc => h (hc ▸ List.mem_cons_self c cs)
    have ih2 := ih fun hm => h (List.mem_cons_of_mem c hm)
    simp only [List.cons_append, splitSlash, hc, if_false, List.append_eq, ih2]

theorem joinSlash_cons {p : List Char} {ps : List (List Char)} (h : ps ≠ []) :
    joinSlash (p :: ps) = p ++ '/' :: joinSlash ps := by
  cases ps with
  | nil => exact absurd rfl h
  | cons q t => rfl

theorem joinSlash_append_single {ps : List (List Char)} (x : List Char) (h : ps ≠ []) :
    joinSlash (ps ++ [x]) = joinSlash ps ++ '/' :: x := by
  induction ps with
  | nil => exact absurd rfl h
  | cons p t ih =>
    cases t with
    | nil => simp [joinSlash]
    | cons q u =>
      have ht : q :: u ≠ [] := by simp
      rw [List.cons_append, joinSlash_cons (by simp), joinSlash_cons ht, ih ht]
      simp

theorem splitSlash_joinSlash :
    ∀ {ps : List (List Char)}, (∀ p ∈ ps, '/' ∉ p) → ps ≠ [] →
      splitSlash (joinSlash ps) = ps := by
  intro ps h hne
  induction ps with
  | nil => exact absurd rfl hne
  | cons p t ih =>
    cases t with
    | nil => exact splitSlash_no_slash (h p (List.mem_cons_self p []))
    | cons q u =>
      rw [joinSlash_cons (by simp),
        splitSlash_append _ (h p (List.mem_cons_self p (q :: u))),
        ih (fun x hx => h x (List.mem_cons_of_mem p hx)) (by simp)]

theorem joinSlash_ne_nil {p : List Char} {ps : List (List Char)} (h : p ≠ []) :
    joinSlash (p :: ps) ≠ [] := by
  cases ps with
  | nil => exact h
  | cons q t =>
    rw [joinSlash_cons (by simp)]
    simp

theorem joinSlash_head? {p : List Char} {ps : List (List Char)} (h : p ≠ []) :
    (joinSlash (p :: ps)).head? = p.head? := by
  cases ps with
  | nil => rfl
  | cons q t =>
    rw [joinSlash_cons (by simp), head?_append_left _ h]

theorem joinSlash_length_ge {p : List Char} {ps : List (List Char)} :
    p.length ≤ (joinSlash (p :: ps)).length := by
  cases ps with
  | nil => exact Nat.le_refl _
  | cons q t =>
    rw [joinSlash_cons (by simp)]
    simp [List.length_append]

theorem joinSlash_ne_dot {ps : List (List Char)}
    (h : ∀ p ∈ ps, CleanComp p) (hne : ps ≠ []) : joinSlash ps ≠ ['.'] := by
  cases ps with
  | nil => exact absurd rfl hne
  | cons p t =>
    rcases h p (List.mem_cons_self p t) with ⟨hp1, hp2, _, _⟩
    cases t with
    | nil => exact hp2
    | cons q u =>
      intro hcontra
      have h1 : p.length ≤ (joinSlash (p :: q :: u)).length := joinSlash_length_ge
      have h2 : 1 ≤ p.length := by
        cases p with
        | nil => exact absurd rfl hp1
        | cons _ _ => simp
      rw [joinSlash_cons (by simp)] at hcontra
      have h3 := congrArg List.length hcontra
      simp [List.length_append] at h3
      omega

end GoGhPage

namespace GoGhPage

/- Behaviour of Clean, Base and Dir on clean component paths. -/

theorem dropWhile_cons_of_neg {α : Type} {p : α → Bool} {a : α} {l : List α}
    (h : p a = false) : (a :: l).dropWhile p = a :: l := by
  rw [List.dropWhile_cons, h]
  simp

theorem cleanStep_clean {rooted : Bool} {out : List (List Char)} {p : List Char}
    (hp : CleanComp p) : cleanStep rooted out p = out ++ [p] := by
  rcases hp with ⟨h1, h2, h3, _⟩
  simp [cleanStep, h1, h2, h3]

theorem foldl_cleanStep_clean {rooted : Bool} :
    ∀ {ps : List (List Char)}, (∀ p ∈ ps, CleanComp p) →
      ∀ out, ps.foldl (cleanStep rooted) out = out ++ ps := by
  intro ps h
  induction ps with
  | nil => intro out; simp
  | cons p t ih =>
    intro out
    rw [List.foldl_cons, cleanStep_clean (h p (List.mem_cons_self p t)),
      ih fun x hx => h x (List.mem_cons_of_mem p hx)]
    simp

theorem head?_ne_slash {p : List Char} (h1 : p ≠ []) (h2 : '/' ∉ p) :
    ¬ (p.head? = some '/') := by
  cases p with
  | nil => exact absurd rfl h1
  | cons c t =>
    intro hcontra
    simp at hcontra
    exact h2 (hcontra ▸ List.mem_cons_self c t)

theorem goCleanCh_not_rooted {l : List Char} {out : List (List Char)}
    (hne : l ≠ []) (hhead : ¬ (l.head? = some '/'))
    (hfold : (splitSlash l).foldl (cleanStep false) [] = out) (hno : out ≠ []) :
    goCleanCh l = joinSlash out := by
  rw [goCleanCh, if_neg hne]
  simp only [decide_eq_false hhead, Bool.false_eq_true, if_false, hfold]
  rw [if_neg hno]

theorem goCleanCh_clean {ps : List (List Char)}
    (h : ∀ p ∈ ps, CleanComp p) (hne : ps ≠ []) :
    goCleanCh (joinSlash ps) = joinSlash ps := by
  cases ps with
  | nil => exact absurd rfl hne
  | cons p t =>
    have hp := h p (List.mem_cons_self p t)
    refine goCleanCh_not_rooted (joinSlash_ne_nil hp.1) ?_ ?_ (by simp)
    · rw [joinSlash_head? hp.1]
      exact head?_ne_slash hp.1 hp.2.2.2
    · rw [splitSlash_joinSlash (fun x hx => (h x hx).2.2.2) (by simp),
        foldl_cleanStep_clean h]
      simp

theorem goCleanCh_clean_slash {ps : List (List Char)}
    (h : ∀ p ∈ ps, CleanComp p) (hne : ps ≠ []) :
    goCleanCh (joinSlash ps ++ ['/']) = joinSlash ps := by
  cases ps with
  | nil => exact absurd rfl hne
  | cons p t =>
    have hp := h p (List.mem_cons_self p t)
    have hl : joinSlash (p :: t) ++ ['/'] = joinSlash ((p :: t) ++ [[]]) := by
      rw [joinSlash_append_single _ (by simp)]
    refine goCleanCh_not_rooted (by simp) ?_ ?_ (by simp)
    · rw [head?_append_left _ (joinSlash_ne_nil hp.1), joinSlash_head? hp.1]
      exact head?_ne_slash hp.1 hp.2.2.2
    · have hsplit : splitSlash (joinSlash (p :: t) ++ ['/']) = (p :: t) ++ [[]] := by
        rw [hl]
        refine splitSlash_joinSlash ?_ (by simp)
        intro x hx
        rcases List.mem_append.1 hx with hx | hx
        · exact (h x hx).2.2.2
        · simp at hx
          simp [hx]
      rw [hsplit, List.foldl_append, foldl_cleanStep_clean h]
      simp [cleanStep]

theorem goBaseCh_no_slash {f : List Char} (hne : f ≠ []) (hs : '/' ∉ f) :
    goBaseCh f = f := by
  have hall1 : ∀ c ∈ f.reverse, (decide (c = '/')) = false := by
    intro c hc
    rw [List.mem_reverse] at hc
    simp
    exact fun hcontra => hs (hcontra ▸ hc)
  have hall2 : ∀ c ∈ f.reverse, (decide (¬ (c = '/'))) = true := by
    intro c hc
    rw [List.mem_reverse] at hc
    simp
    exact fun hcontra => hs (hcontra ▸ hc)
  have hdrop : dropTrailingSlashes f = f := by
    rw [dropTrailingSlashes, dropWhile_none hall1, List.reverse_reverse]
  rw [goBaseCh, if_neg hne]
  simp only [hdrop, if_neg hne, takeWhile_all hall2, List.reverse_reverse]

theorem goBaseCh_after_slash {J f : List Char} (hne : f ≠ []) (hs : '/' ∉ f) :
    goBaseCh (J ++ '/' :: f) = f := by
  have hlne : J ++ '/' :: f ≠ [] := by simp
  have hrev : (J ++ '/' :: f).reverse = f.reverse ++ '/' :: J.reverse := by simp
  have hfrev : ∀ c ∈ f.reverse, (decide (¬ (c = '/'))) = true := by
    intro c hc
    rw [List.mem_reverse] at hc
    simp
    exact fun hcontra => hs (hcontra ▸ hc)
  have hdrop : dropTrailingSlashes (J ++ '/' :: f) = J ++ '/' :: f := by
    rw [dropTrailingSlashes, hrev]
    cases hfr : f.reverse with
    | nil => exact absurd (by simpa using congrArg List.reverse hfr) hne
    | cons a t =>
      have ha : (decide (a = '/')) = false := by
        simp
        intro hcontra
        exact absurd (by rw [← List.mem_reverse, hfr]; exact hcontra ▸ List.mem_cons_self a t) hs
      rw [List.cons_append, dropWhile_cons_of_neg (p := fun c => decide (c = '/')) ha,
        ← List.cons_append, ← hfr, ← hrev, List.reverse_reverse]
  have htake : (J ++ '/' :: f).reverse.takeWhile (fun c => ¬ (c = '/')) = f.reverse := by
    rw [hrev]
    exact takeWhile_append_stop (by simp) _ hfrev
  rw [goBaseCh, if_neg hlne]
  simp only [hdrop, if_neg hlne, htake, List.reverse_reverse]

theorem goDirCh_no_slash {f : List Char} (hs : '/' ∉ f) : goDirCh f = ['.'] := by
  have hall : ∀ c ∈ f.reverse, (decide (¬ (c = '/'))) = true := by
    intro c hc
    rw [List.mem_reverse] at hc
    simp
    exact fun hcontra => hs (hcontra ▸ hc)
  rw [goDirCh]
  simp only [dropWhile_all hall, List.reverse_nil]
  simp

theorem goDirCh_after_slash {J f : List Char} (hs : '/' ∉ f) :
    goDirCh (J ++ '/' :: f) = goCleanCh (J ++ ['/']) := by
  have hrev : (J ++ '/' :: f).reverse = f.reverse ++ '/' :: J.reverse := by simp
  have hfrev : ∀ c ∈ f.reverse, (decide (¬ (c = '/'))) = true := by
    intro c hc
    rw [List.mem_reverse] at hc
    simp
    exact fun hcontra => hs (hcontra ▸ hc)
  have hdrop : (J ++ '/' :: f).reverse.dropWhile (fun c => ¬ (c = '/'))
      = '/' :: J.reverse := by
    rw [hrev]
    exact dropWhile_append_stop (by simp) _ hfrev
  rw [goDirCh]
  simp only [hdrop, List.reverse_cons, List.reverse_reverse]
  rw [if_neg (by simp)]

theorem cleanComp_htmlOut {f : List Char} (hs : '/' ∉ f) :
    CleanComp (trimSuffixCh f (goExtCh f) ++ ".html".data) := by
  have hdata : ".html".data = ['.', 'h', 't', 'm', 'l'] := rfl
  have hsub : ∀ c ∈ trimSuffixCh f (goExtCh f), c ∈ f := by
    intro c hc
    rw [trimSuffixCh] at hc
    by_cases hsuf : hasSuffixCh f (goExtCh f) = true
    · rw [if_pos hsuf] at hc
      exact List.take_subset _ _ hc
    · rw [if_neg hsuf] at hc
      exact hc
  refine ⟨?_, ?_, ?_, ?_⟩
  · intro hcontra
    have := congrArg List.length hcontra
    simp [List.length_append, hdata] at this
  · intro hcontra
    have := congrArg List.length hcontra
    simp [List.length_append, hdata] at this
  · intro hcontra
    have := congrArg List.length hcontra
    simp [List.length_append, hdata] at this
  · intro hcontra
    rcases List.mem_append.1 hcontra with hm | hm
    · exact hs (hsub _ hm)
    · rw [hdata] at hm
      simp at hm

end GoGhPage

namespace GoGhPage

theorem goJoinCh_clean {ps : List (List Char)}
    (h : ∀ p ∈ ps, CleanComp p) (hne : ps ≠ []) : goJoinCh ps = joinSlash ps := by
  cases ps with
  | nil => exact absurd rfl hne
  | cons p t =>
    have hp := h p (List.mem_cons_self p t)
    have hpe : p.isEmpty = false := by
      cases p with
      | nil => exact absurd rfl hp.1
      | cons _ _ => rfl
    have hdw : List.dropWhile (fun e => e.isEmpty) (p :: t) = p :: t := by
      rw [List.dropWhile_cons, hpe]
      simp
    simp only [goJoinCh]
    rw [hdw, if_neg (by simp)]
    exact goCleanCh_clean h (by simp)

theorem goJoinCh_mid_dir {a b : List Char} {dsd : List (List Char)}
    (ha : CleanComp a) (hds : ∀ p ∈ dsd, CleanComp p) (hdsne : dsd ≠ [])
    (hb : CleanComp b) :
    goJoinCh [a, joinSlash dsd, b] = joinSlash (a :: dsd ++ [b]) := by
  have hpe : a.isEmpty = false := by
    cases a with
    | nil => exact absurd rfl ha.1
    | cons _ _ => rfl
  have hjoin : joinSlash [a, joinSlash dsd, b] = joinSlash (a :: dsd ++ [b]) := by
    show a ++ '/' :: (joinSlash dsd ++ '/' :: b) = _
    rw [List.cons_append, joinSlash_cons (by simp), joinSlash_append_single _ hdsne]
  have hdw : List.dropWhile (fun e => e.isEmpty) [a, joinSlash dsd, b] = [a, joinSlash dsd, b] := by
    rw [List.dropWhile_cons, hpe]
    simp
  simp only [goJoinCh]
  rw [hdw, if_neg (by simp), hjoin]
  refine goCleanCh_clean ?_ (by simp)
  intro x hx
  rcases List.mem_cons.1 hx with hx | hx
  · exact hx ▸ ha
  · rcases List.mem_append.1 hx with hx | hx
    · exact hds x hx
    · simp at hx
      exact hx ▸ hb

/-- Claim C1: for every document source path (a clean slash-separated
relative path, given by its directory components `ds` and filename `f`),
GetOutputPath under the docs root replaces the filename's extension with
`.html`; a file at the snapshot root maps to `docs/<name>.html` directly
under the docs root, and otherwise the source's directory prefix is
preserved under the docs root. -/
theorem C1_getOutputPath (ds : List String) (f : String)
    (hds : ∀ d ∈ ds, CleanComp d.data) (hf : CleanComp f.data) :
    Utils.GetOutputPath (pathOfParts (ds ++ [f])) "docs"
      = pathOfParts ("docs" :: ds ++ [htmlName f]) := by
  have hdocs : CleanComp "docs".data := by decide
  have hb2 : CleanComp (trimSuffixCh f.data (goExtCh f.data) ++ ".html".data) :=
    cleanComp_htmlOut hf.2.2.2
  cases ds with
  | nil =>
    have hpath : (pathOfParts ([] ++ [f])).data = f.data := rfl
    rw [Utils.GetOutputPath, hpath, goBaseCh_no_slash hf.1 hf.2.2.2,
      goDirCh_no_slash hf.2.2.2, if_pos rfl]
    show (⟨goJoinCh [_, _]⟩ : String) = _
    rw [goJoinCh_clean (by
      intro x hx
      rcases List.mem_cons.1 hx with hx | hx
      · exact hx ▸ hdocs
      · simp at hx
        exact hx ▸ hb2) (by simp)]
    rfl
  | cons d0 ds2 =>
    have hdsd : ∀ p ∈ (d0 :: ds2).map String.data, CleanComp p := by
      intro p hp
      rcases List.mem_map.1 hp with ⟨d, hd, rfl⟩
      exact hds d hd
    have hdsdne : (d0 :: ds2).map String.data ≠ [] := by simp
    have hpath : (pathOfParts ((d0 :: ds2) ++ [f])).data
        = joinSlash ((d0 :: ds2).map String.data) ++ '/' :: f.data := by
      show joinSlash (((d0 :: ds2) ++ [f]).map String.data) = _
      rw [List.map_append]
      exact joinSlash_append_single _ (by simp)
    have hdir : goDirCh ((pathOfParts ((d0 :: ds2) ++ [f])).data)
        = joinSlash ((d0 :: ds2).map String.data) := by
      rw [hpath, goDirCh_after_slash hf.2.2.2, goCleanCh_clean_slash hdsd hdsdne]
    rw [Utils.GetOutputPath, hdir]
    rw [hpath, goBaseCh_after_slash hf.1 hf.2.2.2]
    rw [if_neg (joinSlash_ne_dot hdsd hdsdne)]
    show (⟨goJoinCh [_, _, _]⟩ : String) = _
    rw [goJoinCh_mid_dir hdocs hdsd hdsdne hb2]
    show (⟨joinSlash ("docs".data :: (d0 :: ds2).map String.data
      ++ [trimSuffixCh f.data (goExtCh f.data) ++ ".html".data])⟩ : String) = _
    have hrhs : (pathOfParts ("docs" :: (d0 :: ds2) ++ [htmlName f])).data
        = joinSlash ("docs".data :: (d0 :: ds2).map String.data
            ++ [trimSuffixCh f.data (goExtCh f.data) ++ ".html".data]) := by
      show joinSlash (("docs" :: (d0 :: ds2) ++ [htmlName f]).map String.data) = _
      simp only [List.map_cons, List.map_append, List.map_cons, List.map_nil]
      rfl
    exact congrArg String.mk hrhs.symm ▸ rfl

/-- Witness for C1 at the example of the claim: the source `d/f.md` maps
to `docs/d/f.html`. -/
theorem C1_getOutputPath_witness :
    ((∀ d ∈ ["d"], CleanComp d.data) ∧ CleanComp "f.md".data) ∧
      Utils.GetOutputPath "d/f.md" "docs" = "docs/d/f.html" := by
  refine ⟨⟨by decide, by decide⟩, ?_⟩
  have h := C1_getOutputPath ["d"] "f.md" (by decide) (by decide)
  have h1 : pathOfParts (["d"] ++ ["f.md"]) = "d/f.md" := by decide
  have h2 : pathOfParts ("docs" :: ["d"] ++ [htmlName "f.md"]) = "docs/d/f.html" := by decide
  rw [h1, h2] at h
  exact h

end GoGhPage

namespace GoGhPage

/-- Claim C2, evaluated at the claim's input: the code leaves
`[Guide](./guide.md#setup)` in `docs/intro.md` unchanged, because
`isMarkdownLink` is consulted on the target before the anchor is split
off, and the target ending in `#setup` has no markdown extension; the
anchor-splitting branch is unreachable for ordinary anchored links. The
claim (and the spec) expect `../docs/guide.html#setup`. -/
theorem C2_anchoredLink_code_bug :
    Utils.ProcessRelativeLinks "[Guide](./guide.md#setup)" "docs/intro.md" "owner" "repo"
        = "[Guide](./guide.md#setup)" ∧
      Utils.ProcessRelativeLinks "[Guide](./guide.md#setup)" "docs/intro.md" "owner" "repo"
        ≠ "[Guide](../docs/guide.html#setup)" := by
  exact ⟨by decide, by decide⟩

/-- Counterexample to claim C3: resolving `./x.md` against the document
`a/b/readme.md` yields `a/b/x.md` (the reference is joined against the
document's directory `a/b`), not the claimed `a/x.md`. -/
theorem C3_resolveRelative_counterexample :
    resolveRelative "./x.md" "a/b/readme.md" = "a/b/x.md" ∧
      ("a/b/x.md" : String) ≠ "a/x.md" := by
  exact ⟨by decide, by decide⟩

/-- Claim C3 as amended: `./x.md` against `a/b/readme.md` resolves to
`a/b/x.md` (not `a/x.md`); the three remaining vectors are as claimed:
`/x.md` resolves to `x.md` and `http://e.com` and `#anchor` are returned
unchanged, against any document. -/
theorem C3_resolveRelative_amended :
    resolveRelative "./x.md" "a/b/readme.md" = "a/b/x.md" ∧
      (∀ doc : String, resolveRelative "/x.md" doc = "x.md") ∧
      (∀ doc : String, resolveRelative "http://e.com" doc = "http://e.com") ∧
      (∀ doc : String, resolveRelative "#anchor" doc = "#anchor") := by
  refine ⟨by decide, ?_, ?_, ?_⟩
  · intro doc
    have hc : (hasPrefixCh "/x.md".data "http".data
        || hasPrefixCh "/x.md".data "#".data) = false := by decide
    rw [resolveRelative, hc]
    simp only [Bool.false_eq_true, if_false]
    have hs : hasPrefixCh "/x.md".data "/".data = true := by decide
    rw [resolveCore, if_pos hs]
    decide
  · intro doc
    have hc : (hasPrefixCh "http://e.com".data "http".data
        || hasPrefixCh "http://e.com".data "#".data) = true := by decide
    rw [resolveRelative, hc]
    simp
  · intro doc
    have hc : (hasPrefixCh "#anchor".data "http".data
        || hasPrefixCh "#anchor".data "#".data) = true := by decide
    rw [resolveRelative, hc]
    simp

end GoGhPage

namespace GoGhPage

/- Structure of the anchored pattern matches. -/

theorem matchLinkAt_complete {t u : List Char} (rest : List Char)
    (ht : ']' ∉ t) (htne : t ≠ []) (hu : ')' ∉ u) (hune : u ≠ []) :
    matchLinkAt ('[' :: (t ++ ']' :: '(' :: (u ++ ')' :: rest))) = some (t, u, rest) := by
  have htp : ∀ c ∈ t, (decide (¬ (c = ']'))) = true := by
    intro c hc
    simp
    exact fun hcontra => ht (hcontra ▸ hc)
  have hup : ∀ c ∈ u, (decide (¬ (c = ')'))) = true := by
    intro c hc
    simp
    exact fun hcontra => hu (hcontra ▸ hc)
  have hdw1 : (t ++ ']' :: '(' :: (u ++ ')' :: rest)).dropWhile (fun x => ¬ (x = ']'))
      = ']' :: '(' :: (u ++ ')' :: rest) := dropWhile_append_stop (by simp) _ htp
  have htw1 : (t ++ ']' :: '(' :: (u ++ ')' :: rest)).takeWhile (fun x => ¬ (x = ']'))
      = t := takeWhile_append_stop (by simp) _ htp
  have hdw2 : (u ++ ')' :: rest).dropWhile (fun x => ¬ (x = ')')) = ')' :: rest :=
    dropWhile_append_stop (by simp) _ hup
  have htw2 : (u ++ ')' :: rest).takeWhile (fun x => ¬ (x = ')')) = u :=
    takeWhile_append_stop (by simp) _ hup
  rw [matchLinkAt, hdw1]
  dsimp only
  rw [if_pos rfl, if_pos ⟨rfl, rfl⟩, hdw2]
  dsimp only
  rw [if_pos rfl, htw1, htw2, if_neg (by simp [htne, hune])]

theorem matchImageAt_complete {t u : List Char} (rest : List Char)
    (ht : ']' ∉ t) (hu : ')' ∉ u) (hune : u ≠ []) :
    matchImageAt ('!' :: '[' :: (t ++ ']' :: '(' :: (u ++ ')' :: rest)))
      = some (t, u, rest) := by
  have htp : ∀ c ∈ t, (decide (¬ (c = ']'))) = true := by
    intro c hc
    simp
    exact fun hcontra => ht (hcontra ▸ hc)
  have hup : ∀ c ∈ u, (decide (¬ (c = ')'))) = true := by
    intro c hc
    simp
    exact fun hcontra => hu (hcontra ▸ hc)
  have hdw1 : (t ++ ']' :: '(' :: (u ++ ')' :: rest)).dropWhile (fun x => ¬ (x = ']'))
      = ']' :: '(' :: (u ++ ')' :: rest) := dropWhile_append_stop (by simp) _ htp
  have htw1 : (t ++ ']' :: '(' :: (u ++ ')' :: rest)).takeWhile (fun x => ¬ (x = ']'))
      = t := takeWhile_append_stop (by simp) _ htp
  have hdw2 : (u ++ ')' :: rest).dropWhile (fun x => ¬ (x = ')')) = ')' :: rest :=
    dropWhile_append_stop (by simp) _ hup
  have htw2 : (u ++ ')' :: rest).takeWhile (fun x => ¬ (x = ')')) = u :=
    takeWhile_append_stop (by simp) _ hup
  rw [matchImageAt, hdw1]
  dsimp only
  rw [if_pos ⟨rfl, rfl⟩, if_pos ⟨rfl, rfl⟩, hdw2]
  dsimp only
  rw [if_pos rfl, htw2, if_neg hune, htw1]

theorem matchLinkAt_sound {l t u rest : List Char}
    (h : matchLinkAt l = some (t, u, rest)) :
    l = '[' :: (t ++ ']' :: '(' :: (u ++ ')' :: rest))
      ∧ t ≠ [] ∧ u ≠ [] ∧ ']' ∉ t ∧ ')' ∉ u := by
  cases l with
  | nil => exact absurd h (by simp [matchLinkAt])
  | cons c r =>
    by_cases hc : c = '['
    · subst hc
      cases hdw1 : r.dropWhile (fun x => ¬ (x = ']')) with
      | nil => rw [matchLinkAt, hdw1] at h; simp at h
      | cons b1 tail =>
        cases tail with
        | nil => rw [matchLinkAt, hdw1] at h; simp at h
        | cons b2 r2 =>
          rw [matchLinkAt, hdw1] at h
          dsimp only at h
          rw [if_pos rfl] at h
          by_cases hb : b1 = ']' ∧ b2 = '('
          · rw [if_pos hb] at h
            cases hdw2 : r2.dropWhile (fun x => ¬ (x = ')')) with
            | nil => rw [hdw2] at h; simp at h
            | cons b3 rest2 =>
              rw [hdw2] at h
              dsimp only at h
              by_cases hb3 : b3 = ')'
              · rw [if_pos hb3] at h
                by_cases hemp : r.takeWhile (fun x => ¬ (x = ']')) = []
                    ∨ r2.takeWhile (fun x => ¬ (x = ')')) = []
                · rw [if_pos hemp] at h; simp at h
                · rw [if_neg hemp] at h
                  push_neg at hemp
                  injection h with h
                  injection h with h1 h
                  injection h with h2 h3
                  subst hb3
                  rcases hb with ⟨hb1, hb2⟩
                  subst hb1
                  subst hb2
                  have hr : r = t ++ ']' :: '(' :: r2 := by
                    conv_lhs => rw [← (List.takeWhile_append_dropWhile
                        (p := fun x => ¬ (x = ']')) (l := r))]
                    rw [h1, hdw1]
                  have hr2 : r2 = u ++ ')' :: rest := by
                    conv_lhs => rw [← (List.takeWhile_append_dropWhile
                        (p := fun x => ¬ (x = ')')) (l := r2))]
                    rw [h2, hdw2, h3]
                  refine ⟨by rw [hr, hr2], h1 ▸ hemp.1, h2 ▸ hemp.2, ?_, ?_⟩
                  · intro hmem
                    have := mem_of_mem_takeWhile (h1 ▸ hmem)
                    simp at this
                  · intro hmem
                    have := mem_of_mem_takeWhile (h2 ▸ hmem)
                    simp at this
              · rw [if_neg hb3] at h; simp at h
          · rw [if_neg hb] at h; simp at h
    · rw [matchLinkAt, if_neg hc] at h; simp at h

theorem matchImageAt_sound {l t u rest : List Char}
    (h : matchImageAt l = some (t, u, rest)) :
    l = '!' :: '[' :: (t ++ ']' :: '(' :: (u ++ ')' :: rest))
      ∧ u ≠ [] ∧ ']' ∉ t ∧ ')' ∉ u := by
  cases l with
  | nil => exact absurd h (by simp [matchImageAt])
  | cons c0 l1 =>
    cases l1 with
    | nil => exact absurd h (by simp [matchImageAt])
    | cons c1 r =>
      by_cases hc : c0 = '!' ∧ c1 = '['
      · rcases hc with ⟨hc0, hc1⟩
        subst hc0
        subst hc1
        cases hdw1 : r.dropWhile (fun x => ¬ (x = ']')) with
        | nil => rw [matchImageAt, hdw1] at h; simp at h
        | cons b1 tail =>
          cases tail with
          | nil => rw [matchImageAt, hdw1] at h; simp at h
          | cons b2 r2 =>
            rw [matchImageAt, hdw1] at h
            dsimp only at h
            rw [if_pos ⟨rfl, rfl⟩] at h
            by_cases hb : b1 = ']' ∧ b2 = '('
            · rw [if_pos hb] at h
              cases hdw2 : r2.dropWhile (fun x => ¬ (x = ')')) with
              | nil => rw [hdw2] at h; simp at h
              | cons b3 rest2 =>
                rw [hdw2] at h
                dsimp only at h
                by_cases hb3 : b3 = ')'
                · rw [if_pos hb3] at h
                  by_cases hemp : r2.takeWhile (fun x => ¬ (x = ')')) = []
                  · rw [if_pos hemp] at h; simp at h
                  · rw [if_neg hemp] at h
                    injection h with h
                    injection h with h1 h
                    injection h with h2 h3
                    subst hb3
                    rcases hb with ⟨hb1, hb2⟩
                    subst hb1
                    subst hb2
                    have hr : r = t ++ ']' :: '(' :: r2 := by
                      conv_lhs => rw [← (List.takeWhile_append_dropWhile
                          (p := fun x => ¬ (x = ']')) (l := r))]
                      rw [h1, hdw1]
                    have hr2 : r2 = u ++ ')' :: rest := by
                      conv_lhs => rw [← (List.takeWhile_append_dropWhile
                          (p := fun x => ¬ (x = ')')) (l := r2))]
                      rw [h2, hdw2, h3]
                    refine ⟨by rw [hr, hr2], h2 ▸ hemp, ?_, ?_⟩
                    · intro hmem
                      have := mem_of_mem_takeWhile (h1 ▸ hmem)
                      simp at this
                    · intro hmem
                      have := mem_of_mem_takeWhile (h2 ▸ hmem)
                      simp at this
                · rw [if_neg hb3] at h; simp at h
            · rw [if_neg hb] at h; simp at h
      · rw [matchImageAt, if_neg hc] at h; simp at h

theorem matchLinkAt_rest_length {l t u rest : List Char}
    (h : matchLinkAt l = some (t, u, rest)) : rest.length + 5 ≤ l.length := by
  obtain ⟨hl, htne, hune, -, -⟩ := matchLinkAt_sound h
  have h1 : 1 ≤ t.length := by
    cases t with
    | nil => exact absurd rfl htne
    | cons _ _ => simp
  have h2 : 1 ≤ u.length := by
    cases u with
    | nil => exact absurd rfl hune
    | cons _ _ => simp
  rw [hl]
  simp [List.length_append]
  omega

theorem matchImageAt_rest_length {l t u rest : List Char}
    (h : matchImageAt l = some (t, u, rest)) : rest.length + 5 ≤ l.length := by
  obtain ⟨hl, hune, -, -⟩ := matchImageAt_sound h
  have h2 : 1 ≤ u.length := by
    cases u with
    | nil => exact absurd rfl hune
    | cons _ _ => simp
  rw [hl]
  simp [List.length_append]
  omega

end GoGhPage

namespace GoGhPage

/- The fuel argument of the scanners is irrelevant once it covers the
input length, giving clean one-step unfolding equations. -/

theorem replaceLinksAux_congr (f : List Char → List Char → List Char) :
    ∀ (n : Nat) (l : List Char) (fuel1 fuel2 : Nat),
      l.length ≤ n → l.length ≤ fuel1 → l.length ≤ fuel2 →
      replaceLinksAux f fuel1 l = replaceLinksAux f fuel2 l := by
  intro n
  induction n with
  | zero =>
    intro l fuel1 fuel2 h _ _
    have : l = [] := List.length_eq_zero.1 (Nat.le_zero.1 h)
    subst this
    cases fuel1 <;> cases fuel2 <;> rfl
  | succ n ih =>
    intro l fuel1 fuel2 h h1 h2
    cases l with
    | nil => cases fuel1 <;> cases fuel2 <;> rfl
    | cons c cs =>
      cases fuel1 with
      | zero => exact absurd h1 (by simp)
      | succ f1 =>
        cases fuel2 with
        | zero => exact absurd h2 (by simp)
        | succ f2 =>
          have hln : cs.length ≤ n := by
            simp at h
            omega
          have hl1 : cs.length ≤ f1 := by
            simp at h1
            omega
          have hl2 : cs.length ≤ f2 := by
            simp at h2
            omega
          simp only [replaceLinksAux]
          cases hm : matchLinkAt (c :: cs) with
          | none =>
            dsimp only
            rw [ih cs f1 f2 hln hl1 hl2]
          | some tur =>
            obtain ⟨t, u, rest⟩ := tur
            have hrest := matchLinkAt_rest_length hm
            simp at hrest
            dsimp only
            rw [ih rest f1 f2 (by omega) (by omega) (by omega)]

theorem replaceImagesAux_congr (f : List Char → List Char → List Char) :
    ∀ (n : Nat) (l : List Char) (fuel1 fuel2 : Nat),
      l.length ≤ n → l.length ≤ fuel1 → l.length ≤ fuel2 →
      replaceImagesAux f fuel1 l = replaceImagesAux f fuel2 l := by
  intro n
  induction n with
  | zero =>
    intro l fuel1 fuel2 h _ _
    have : l = [] := List.length_eq_zero.1 (Nat.le_zero.1 h)
    subst this
    cases fuel1 <;> cases fuel2 <;> rfl
  | succ n ih =>
    intro l fuel1 fuel2 h h1 h2
    cases l with
    | nil => cases fuel1 <;> cases fuel2 <;> rfl
    | cons c cs =>
      cases fuel1 with
      | zero => exact absurd h1 (by simp)
      | succ f1 =>
        cases fuel2 with
        | zero => exact absurd h2 (by simp)
        | succ f2 =>
          have hln : cs.length ≤ n := by
            simp at h
            omega
          have hl1 : cs.length ≤ f1 := by
            simp at h1
            omega
          have hl2 : cs.length ≤ f2 := by
            simp at h2
            omega
          simp only [replaceImagesAux]
          cases hm : matchImageAt (c :: cs) with
          | none =>
            dsimp only
            rw [ih cs f1 f2 hln hl1 hl2]
          | some tur =>
            obtain ⟨t, u, rest⟩ := tur
            have hrest := matchImageAt_rest_length hm
            simp at hrest
            dsimp only
            rw [ih rest f1 f2 (by omega) (by omega) (by omega)]

theorem replaceLinksCh_cons_none {f : List Char → List Char → List Char}
    {c : Char} {cs : List Char} (h : matchLinkAt (c :: cs) = none) :
    replaceLinksCh f (c :: cs) = c :: replaceLinksCh f cs := by
  rw [replaceLinksCh, replaceLinksCh, List.length_cons, replaceLinksAux, h]

theorem replaceLinksCh_cons_some {f : List Char → List Char → List Char}
    {c : Char} {cs t u rest : List Char} (h : matchLinkAt (c :: cs) = some (t, u, rest)) :
    replaceLinksCh f (c :: cs) = f t u ++ replaceLinksCh f rest := by
  have hrest := matchLinkAt_rest_length h
  simp at hrest
  rw [replaceLinksCh, replaceLinksCh, List.length_cons, replaceLinksAux, h]
  dsimp only
  rw [replaceLinksAux_congr f cs.length rest cs.length rest.length (by omega) (by omega)
    (Nat.le_refl _)]

theorem replaceImagesCh_cons_none {f : List Char → List Char → List Char}
    {c : Char} {cs : List Char} (h : matchImageAt (c :: cs) = none) :
    replaceImagesCh f (c :: cs) = c :: replaceImagesCh f cs := by
  rw [replaceImagesCh, replaceImagesCh, List.length_cons, replaceImagesAux, h]

theorem replaceImagesCh_cons_some {f : List Char → List Char → List Char}
    {c : Char} {cs t u rest : List Char} (h : matchImageAt (c :: cs) = some (t, u, rest)) :
    replaceImagesCh f (c :: cs) = f t u ++ replaceImagesCh f rest := by
  have hrest := matchImageAt_rest_length h
  simp at hrest
  rw [replaceImagesCh, replaceImagesCh, List.length_cons, replaceImagesAux, h]
  dsimp only
  rw [replaceImagesAux_congr f cs.length rest cs.length rest.length (by omega) (by omega)
    (Nat.le_refl _)]

/- Fail-open behaviour: text without a match is passed through unchanged. -/

theorem replaceLinksCh_id {f : List Char → List Char → List Char} :
    ∀ {l : List Char}, hasLinkMatchB l = false → replaceLinksCh f l = l := by
  intro l
  induction l with
  | nil => intro _; rfl
  | cons c cs ih =>
    intro h
    rw [hasLinkMatchB] at h
    rcases Bool.or_eq_false_iff.1 h with ⟨hm, hrec⟩
    rw [replaceLinksCh_cons_none (Option.not_isSome_iff_eq_none.1 (by simp [hm])), ih hrec]

theorem replaceImagesCh_id {f : List Char → List Char → List Char} :
    ∀ {l : List Char}, hasImageMatchB l = false → replaceImagesCh f l = l := by
  intro l
  induction l with
  | nil => intro _; rfl
  | cons c cs ih =>
    intro h
    rw [hasImageMatchB] at h
    rcases Bool.or_eq_false_iff.1 h with ⟨hm, hrec⟩
    rw [replaceImagesCh_cons_none (Option.not_isSome_iff_eq_none.1 (by simp [hm])), ih hrec]

theorem matchImageAt_none_of_no_bang {c : Char} {cs : List Char} (h : ¬ (c = '!')) :
    matchImageAt (c :: cs) = none := by
  cases cs with
  | nil => rfl
  | cons c1 r =>
    rw [matchImageAt, if_neg (by intro hcontra; exact h hcontra.1)]

theorem hasImageMatchB_eq_false_of_no_bang :
    ∀ {l : List Char}, '!' ∉ l → hasImageMatchB l = false := by
  intro l h
  induction l with
  | nil => rfl
  | cons c cs ih =>
    have hc : ¬ (c = '!') := fun hc => h (hc ▸ List.mem_cons_self c cs)
    rw [hasImageMatchB, matchImageAt_none_of_no_bang hc]
    simp only [Option.isSome_none, Bool.false_or]
    exact ih fun hm => h (List.mem_cons_of_mem c hm)

end GoGhPage

namespace GoGhPage

theorem data_append (a b : String) : (a ++ b).data = a.data ++ b.data := rfl

theorem mk_data (s : String) : (⟨s.data⟩ : String) = s := rfl

theorem data_ne_nil_of_ne_empty {s : String} (h : s ≠ "") : s.data ≠ [] := by
  intro hc
  apply h
  cases s with
  | mk d =>
    cases hc
    rfl

theorem data_mkLink (text target : String) :
    ("[" ++ text ++ "](" ++ target ++ ")").data
      = '[' :: (text.data ++ ']' :: '(' :: (target.data ++ ')' :: [])) := by
  simp [data_append]

theorem data_mkEmbed (alt target : String) :
    ("![" ++ alt ++ "](" ++ target ++ ")").data
      = '!' :: '[' :: (alt.data ++ ']' :: '(' :: (target.data ++ ')' :: [])) := by
  simp [data_append]

/-- utils.ProcessRelativeLinks on a document that is one single link
occurrence: the replacement callback applied to the parsed text and
target. -/
theorem processRelativeLinks_single (fp owner repo text target : String)
    (htext : ']' ∉ text.data) (htextne : text ≠ "")
    (htar : ')' ∉ target.data) (htarne : target ≠ "") :
    Utils.ProcessRelativeLinks ("[" ++ text ++ "](" ++ target ++ ")") fp owner repo
      = ⟨Utils.processLinkMatch (goDirCh fp.data) text.data target.data⟩ := by
  rw [Utils.ProcessRelativeLinks]
  rw [data_mkLink]
  rw [replaceLinksCh_cons_some (matchLinkAt_complete [] htext
    (data_ne_nil_of_ne_empty htextne) htar (data_ne_nil_of_ne_empty htarne))]
  show (⟨Utils.processLinkMatch (goDirCh fp.data) text.data target.data ++ []⟩ : String) = _
  rw [List.append_nil]

/-- generator.processImageLinks on a document that is one single image
embed: the replacement callback applied to the parsed alt text and
target. -/
theorem processImageLinks_single (fp alt target : String)
    (halt : ']' ∉ alt.data) (htar : ')' ∉ target.data) (htarne : target ≠ "") :
    Generator.processImageLinks ("![" ++ alt ++ "](" ++ target ++ ")") fp
      = ⟨Generator.processImageMatch (goDirCh fp.data) alt.data target.data⟩ := by
  rw [Generator.processImageLinks]
  rw [data_mkEmbed]
  rw [replaceImagesCh_cons_some (matchImageAt_complete [] halt htar
    (data_ne_nil_of_ne_empty htarne))]
  show (⟨Generator.processImageMatch (goDirCh fp.data) alt.data target.data ++ []⟩ : String) = _
  rw [List.append_nil]

/-- The replacement callback of the link pass returns the match unchanged
whenever the target is an external URL, a pure anchor, an image target, or
anything that is not a markdown target. -/
theorem processLinkMatch_skip {baseDir text target : List Char}
    (h : (hasPrefixCh target "http".data || hasPrefixCh target "#".data) = true
      ∨ Utils.isImageLink ⟨target⟩ = true
      ∨ (Utils.isImageLink ⟨target⟩ = false ∧ Utils.isMarkdownLink ⟨target⟩ = false)) :
    Utils.processLinkMatch baseDir text target = mkLinkCh text target := by
  rw [Utils.processLinkMatch]
  cases hp : (hasPrefixCh target "http".data || hasPrefixCh target "#".data) with
  | true => rw [if_pos rfl]
  | false =>
    simp only [Bool.false_eq_true, if_false]
    rcases h with h | h | h
    · exact absurd hp (by simp [h])
    · rw [if_pos h]
    · rw [if_neg (by simp [h.1]), if_neg (by simp [h.2])]

/-- Claim C4: an image embed whose target is not an external URL is
rewritten by the image pass to `../images/<filename>`, where the filename
is the final component of the target resolved against the containing
document's directory. -/
theorem C4_imageEmbedRewrite (fp alt target : String)
    (halt : ']' ∉ alt.data) (htar : ')' ∉ target.data) (htarne : target ≠ "")
    (hhttp : hasPrefixCh target.data "http".data = false) :
    Generator.processImageLinks ("![" ++ alt ++ "](" ++ target ++ ")") fp
      = "![" ++ alt ++ "](../images/"
          ++ ⟨goBaseCh (resolveCore (goDirCh fp.data) target.data)⟩ ++ ")" := by
  rw [processImageLinks_single fp alt target halt htar htarne]
  rw [Generator.processImageMatch, hhttp]
  simp only [Bool.false_eq_true, if_false]
  apply congrArg String.mk
  simp [data_append]

/-- Witness for C4 at the spec's vector: `![diagram](../assets/d.png)`
inside `docs/sub/page.md` becomes `![diagram](../images/d.png)`. -/
theorem C4_imageEmbedRewrite_witness :
    ((']' ∉ "diagram".data) ∧ (')' ∉ "../assets/d.png".data)
        ∧ "../assets/d.png" ≠ ""
        ∧ hasPrefixCh "../assets/d.png".data "http".data = false) ∧
      Generator.processImageLinks "![diagram](../assets/d.png)" "docs/sub/page.md"
        = "![diagram](../images/d.png)" := by
  refine ⟨⟨by decide, by decide, by decide, by decide⟩, ?_⟩
  have h := C4_imageEmbedRewrite "docs/sub/page.md" "diagram" "../assets/d.png"
    (by decide) (by decide) (by decide) (by decide)
  have h1 : ("![" ++ "diagram" ++ "](" ++ "../assets/d.png" ++ ")" : String)
      = "![diagram](../assets/d.png)" := by decide
  have h2 : ("![" ++ "diagram" ++ "](../images/"
        ++ (⟨goBaseCh (resolveCore (goDirCh ("docs/sub/page.md" : String).data)
            ("../assets/d.png" : String).data)⟩ : String) ++ ")" : String)
      = "![diagram](../images/d.png)" := by decide
  rw [h1, h2] at h
  exact h

end GoGhPage

namespace GoGhPage

/-- Claim C8: a plain link occurrence `[text](target)` whose target has an
image extension is left textually unchanged by both passes: the link pass
skips image targets, and the image pass cannot match without a leading
`!` (the occurrence contains none). -/
theorem C8_plainImageLinkUnchanged (fp owner repo text target : String)
    (htext : ']' ∉ text.data) (htextne : text ≠ "")
    (htar : ')' ∉ target.data) (htarne : target ≠ "")
    (hbangt : '!' ∉ text.data) (hbang : '!' ∉ target.data)
    (him : Utils.isImageLink target = true) :
    Utils.ProcessRelativeLinks ("[" ++ text ++ "](" ++ target ++ ")") fp owner repo
        = "[" ++ text ++ "](" ++ target ++ ")" ∧
      Generator.processImageLinks ("[" ++ text ++ "](" ++ target ++ ")") fp
        = "[" ++ text ++ "](" ++ target ++ ")" := by
  constructor
  · rw [processRelativeLinks_single fp owner repo text target htext htextne htar htarne]
    rw [processLinkMatch_skip (Or.inr (Or.inl (by rw [mk_data]; exact him)))]
    exact congrArg String.mk (by simp [mkLinkCh])
  · have hnobang : '!' ∉ ("[" ++ text ++ "](" ++ target ++ ")").data := by
      rw [data_mkLink]
      intro hm
      simp only [List.mem_cons, List.mem_append] at hm
      rcases hm with hm | hm
      · exact absurd hm (by decide)
      rcases hm with hm | hm
      · exact hbangt hm
      rcases hm with hm | hm
      · exact absurd hm (by decide)
      rcases hm with hm | hm
      · exact absurd hm (by decide)
      rcases hm with hm | hm
      · exact hbang hm
      rcases hm with hm | hm
      · exact absurd hm (by decide)
      · exact absurd hm (by simp)
    rw [Generator.processImageLinks,
      replaceImagesCh_id (hasImageMatchB_eq_false_of_no_bang hnobang)]

/-- Witness for C8 at a concrete plain image link. -/
theorem C8_plainImageLinkUnchanged_witness :
    ((']' ∉ "shot".data) ∧ "shot" ≠ "" ∧ (')' ∉ "img/a.png".data) ∧ "img/a.png" ≠ ""
        ∧ ('!' ∉ "shot".data) ∧ ('!' ∉ "img/a.png".data)
        ∧ Utils.isImageLink "img/a.png" = true) ∧
      Utils.ProcessRelativeLinks ("[" ++ "shot" ++ "](" ++ "img/a.png" ++ ")")
          "docs/p.md" "o" "r"
        = "[" ++ "shot" ++ "](" ++ "img/a.png" ++ ")" ∧
      Generator.processImageLinks ("[" ++ "shot" ++ "](" ++ "img/a.png" ++ ")") "docs/p.md"
        = "[" ++ "shot" ++ "](" ++ "img/a.png" ++ ")" := by
  refine ⟨⟨by decide, by decide, by decide, by decide, by decide, by decide, by decide⟩, ?_⟩
  exact C8_plainImageLinkUnchanged "docs/p.md" "o" "r" "shot" "img/a.png"
    (by decide) (by decide) (by decide) (by decide) (by decide) (by decide) (by decide)

/-- Claim C9: the rewriting passes are total functions on text (they
return a rewritten string, never an error). An occurrence whose target is
an external URL, a pure anchor, or neither markdown nor image is passed
through unchanged by the link pass; an external URL embed is passed
through unchanged by the image pass; and a document in which the pattern
never matches is returned entirely unchanged by either pass. -/
theorem C9_failOpen (fp owner repo text alt target : String)
    (htext : ']' ∉ text.data) (htextne : text ≠ "")
    (halt : ']' ∉ alt.data)
    (htar : ')' ∉ target.data) (htarne : target ≠ "") :
    ((hasPrefixCh target.data "http".data || hasPrefixCh target.data "#".data) = true
        ∨ (Utils.isImageLink target = false ∧ Utils.isMarkdownLink target = false) →
      Utils.ProcessRelativeLinks ("[" ++ text ++ "](" ++ target ++ ")") fp owner repo
        = "[" ++ text ++ "](" ++ target ++ ")")
    ∧ (hasPrefixCh target.data "http".data = true →
      Generator.processImageLinks ("![" ++ alt ++ "](" ++ target ++ ")") fp
        = "![" ++ alt ++ "](" ++ target ++ ")")
    ∧ (∀ s : String, hasLinkMatchB s.data = false →
      Utils.ProcessRelativeLinks s fp owner repo = s)
    ∧ (∀ s : String, hasImageMatchB s.data = false →
      Generator.processImageLinks s fp = s) := by
  refine ⟨?_, ?_, ?_, ?_⟩
  · intro h
    rw [processRelativeLinks_single fp owner repo text target htext htextne htar htarne]
    rw [processLinkMatch_skip (h.imp id (fun hni => Or.inr
      (by rw [mk_data]; exact hni)))]
    exact congrArg String.mk (by simp [mkLinkCh])
  · intro h
    rw [processImageLinks_single fp alt target halt htar htarne]
    rw [Generator.processImageMatch, h, if_pos rfl]
    exact congrArg String.mk (by simp [mkEmbedCh])
  · intro s hs
    rw [Utils.ProcessRelativeLinks, replaceLinksCh_id hs]
  · intro s hs
    rw [Generator.processImageLinks, replaceImagesCh_id hs]

/-- Witness for C9 at concrete inputs: an external link and embed are
unchanged, and matchless text is unchanged by both passes. -/
theorem C9_failOpen_witness :
    Utils.ProcessRelativeLinks ("[" ++ "t" ++ "](" ++ "http://x" ++ ")") "d/p.md" "o" "r"
        = "[" ++ "t" ++ "](" ++ "http://x" ++ ")" ∧
      Generator.processImageLinks ("![" ++ "a" ++ "](" ++ "http://x" ++ ")") "d/p.md"
        = "![" ++ "a" ++ "](" ++ "http://x" ++ ")" ∧
      Utils.ProcessRelativeLinks "some [unclosed text" "d/p.md" "o" "r"
        = "some [unclosed text" ∧
      Generator.processImageLinks "some ![unclosed text" "d/p.md"
        = "some ![unclosed text" := by
  have h := C9_failOpen "d/p.md" "o" "r" "t" "a" "http://x"
    (by decide) (by decide) (by decide) (by decide) (by decide)
  exact ⟨h.1 (Or.inl (by decide)), h.2.1 (by decide),
    h.2.2.1 "some [unclosed text" (by decide),
    h.2.2.2 "some ![unclosed text" (by decide)⟩

end GoGhPage

namespace GoGhPage

/- Correctness of the exchange sort shared by SortDocPagesByTitle and
sortContributorsByCommits: given an asymmetric transitive swap condition,
the result has no adjacent pair satisfying it, and every element of the
result is an element of the input. -/

theorem getD_cons_succ {α : Type} (a : α) (t : List α) (n : Nat) (d : α) :
    (a :: t).getD (n + 1) d = t.getD n d := rfl

theorem getD_set_self {α : Type} :
    ∀ {l : List α} {i : Nat} {x d : α}, i < l.length → (l.set i x).getD i d = x := by
  intro l
  induction l with
  | nil => intro i x d h; simp at h
  | cons a t ih =>
    intro i x d h
    cases i with
    | zero => rfl
    | succ i =>
      rw [List.set_cons_succ, getD_cons_succ]
      exact ih (by simp at h; omega)

theorem getD_set_ne {α : Type} :
    ∀ {l : List α} {i k : Nat} {x d : α}, i ≠ k → (l.set i x).getD k d = l.getD k d := by
  intro l
  induction l with
  | nil => intro i k x d _; simp
  | cons a t ih =>
    intro i k x d h
    cases i with
    | zero =>
      cases k with
      | zero => exact absurd rfl h
      | succ k => rfl
    | succ i =>
      cases k with
      | zero => rfl
      | succ k =>
        rw [List.set_cons_succ, getD_cons_succ, getD_cons_succ]
        exact ih (fun hc => h (by rw [hc]))

theorem getD_mem {α : Type} :
    ∀ {l : List α} {k : Nat} {d : α}, k < l.length → l.getD k d ∈ l := by
  intro l
  induction l with
  | nil => intro k d h; simp at h
  | cons a t ih =>
    intro k d h
    cases k with
    | zero => exact List.mem_cons_self a t
    | succ k =>
      rw [getD_cons_succ]
      exact List.mem_cons_of_mem a (ih (by simp at h; omega))

theorem mem_getD {α : Type} (d : α) :
    ∀ {l : List α} {x : α}, x ∈ l → ∃ k, k < l.length ∧ l.getD k d = x := by
  intro l
  induction l with
  | nil => intro x h; simp at h
  | cons a t ih =>
    intro x h
    rcases List.mem_cons.1 h with h | h
    · exact ⟨0, by simp, h.symm⟩
    · obtain ⟨k, hk, he⟩ := ih h
      refine ⟨k + 1, by simp; omega, he⟩

section ExchangeSort

variable {α : Type} (gt : α → α → Bool) (d : α)

theorem exchangeSwap_length (l : List α) (i j : Nat) :
    (exchangeSwap gt d l i j).length = l.length := by
  rw [exchangeSwap]
  split <;> simp

theorem innerPass_length :
    ∀ (fuel : Nat) (l : List α) (i j : Nat),
      (innerPass gt d fuel l i j).length = l.length := by
  intro fuel
  induction fuel with
  | zero => intro l i j; rfl
  | succ fuel ih =>
    intro l i j
    rw [innerPass]
    split
    · rw [ih, exchangeSwap_length]
    · rfl

theorem outerPass_length :
    ∀ (fuel : Nat) (l : List α) (i : Nat),
      (outerPass gt d fuel l i).length = l.length := by
  intro fuel
  induction fuel with
  | zero => intro l i; rfl
  | succ fuel ih =>
    intro l i
    rw [outerPass]
    split
    · rw [ih, innerPass_length]
    · rfl

theorem exchangeSwap_getD_outside {l : List α} {i j k : Nat}
    (hik : k ≠ i) (hjk : k ≠ j) :
    (exchangeSwap gt d l i j).getD k d = l.getD k d := by
  rw [exchangeSwap]
  split
  · rw [getD_set_ne (fun hc => hjk hc.symm), getD_set_ne (fun hc => hik hc.symm)]
  · rfl

theorem exchangeSwap_getD_origin {l : List α} {i j : Nat} (q : Nat)
    (hi : i < l.length) (hj : j < l.length) :
    ∃ q2, (q2 = i ∨ q2 = j ∨ q2 = q) ∧
      (exchangeSwap gt d l i j).getD q d = l.getD q2 d := by
  rw [exchangeSwap]
  split
  · by_cases hqj : q = j
    · refine ⟨i, Or.inl rfl, ?_⟩
      rw [hqj]
      exact getD_set_self (by rw [List.length_set]; exact hj)
    · by_cases hqi : q = i
      · refine ⟨j, Or.inr (Or.inl rfl), ?_⟩
        rw [getD_set_ne (fun hc => hqj hc.symm), hqi]
        exact getD_set_self hi
      · refine ⟨q, Or.inr (Or.inr rfl), ?_⟩
        rw [getD_set_ne (fun hc => hqj hc.symm), getD_set_ne (fun hc => hqi hc.symm)]
  · exact ⟨q, Or.inr (Or.inr rfl), rfl⟩

theorem innerPass_frame :
    ∀ (fuel : Nat) (l : List α) (i j k : Nat), k < j → k ≠ i →
      (innerPass gt d fuel l i j).getD k d = l.getD k d := by
  intro fuel
  induction fuel with
  | zero => intro l i j k _ _; rfl
  | succ fuel ih =>
    intro l i j k hkj hki
    rw [innerPass]
    split
    · rw [ih _ i (j + 1) k (by omega) hki,
        exchangeSwap_getD_outside gt d hki (by omega)]
    · rfl

theorem innerPass_origin :
    ∀ (fuel : Nat) (l : List α) (i j k : Nat), i < j → i ≤ k → k < l.length →
      ∃ q, i ≤ q ∧ q < l.length ∧
        (innerPass gt d fuel l i j).getD k d = l.getD q d := by
  intro fuel
  induction fuel with
  | zero => intro l i j k _ hik hk; exact ⟨k, hik, hk, rfl⟩
  | succ fuel ih =>
    intro l i j k hij hik hk
    rw [innerPass]
    split
    · next hj =>
      obtain ⟨q, hiq, hq, he⟩ := ih (exchangeSwap gt d l i j) i (j + 1) k (by omega) hik
        (by rw [exchangeSwap_length]; exact hk)
      rw [exchangeSwap_length] at hq
      obtain ⟨q2, hq2, he2⟩ := exchangeSwap_getD_origin gt d q
        (l := l) (i := i) (j := j) (by omega) hj
      exact ⟨q2, by omega, by omega, by rw [he, he2]⟩
    · exact ⟨k, hik, hk, rfl⟩

end ExchangeSort

end GoGhPage

namespace GoGhPage

section ExchangeSortMain

variable {α : Type} (gt : α → α → Bool) (d : α)

theorem gt_eq_false_of_not_true {a b : α} (h : ¬ gt a b = true) : gt a b = false := by
  cases hab : gt a b with
  | false => rfl
  | true => exact absurd hab h

/-- After the inner pass for index i, the element left at i does not
satisfy the swap condition against any later element. -/
theorem innerPass_dom
    (hasym : ∀ a b, gt a b = true → gt b a = false)
    (htrans : ∀ a b c, gt a b = true → gt b c = true → gt a c = true) :
    ∀ (fuel : Nat) (l : List α) (i j : Nat), i < j → l.length ≤ fuel + j →
      (∀ k2, i < k2 → k2 < j → gt (l.getD i d) (l.getD k2 d) = false) →
      ∀ k, i < k → k < l.length →
        gt ((innerPass gt d fuel l i j).getD i d)
          ((innerPass gt d fuel l i j).getD k d) = false := by
  intro fuel
  induction fuel with
  | zero =>
    intro l i j hij hfu hpre k hik hk
    exact hpre k hik (by omega)
  | succ fuel ih =>
    intro l i j hij hfu hpre k hik hk
    rw [innerPass]
    split
    · next hj =>
      refine ih (exchangeSwap gt d l i j) i (j + 1) (by omega)
        (by rw [exchangeSwap_length]; omega) ?_ k hik
        (by rw [exchangeSwap_length]; exact hk)
      intro k2 hik2 hk2j
      cases hsw : gt (l.getD i d) (l.getD j d) with
      | true =>
        have hbi : (exchangeSwap gt d l i j).getD i d = l.getD j d := by
          rw [exchangeSwap, if_pos hsw, getD_set_ne (show j ≠ i by omega)]
          exact getD_set_self (by omega)
        have hbj : (exchangeSwap gt d l i j).getD j d = l.getD i d := by
          rw [exchangeSwap, if_pos hsw]
          exact getD_set_self (by rw [List.length_set]; omega)
        by_cases hk2 : k2 = j
        · rw [hbi, hk2, hbj]
          exact hasym _ _ hsw
        · have hbk : (exchangeSwap gt d l i j).getD k2 d = l.getD k2 d :=
            exchangeSwap_getD_outside gt d (by omega) hk2
          rw [hbi, hbk]
          apply gt_eq_false_of_not_true
          intro hcon
          have hcombined := htrans _ _ _ hsw hcon
          have hfalse := hpre k2 hik2 (by omega)
          rw [hfalse] at hcombined
          exact Bool.noConfusion hcombined
      | false =>
        have hb : exchangeSwap gt d l i j = l := by
          rw [exchangeSwap, hsw]
          simp
        rw [hb]
        by_cases hk2 : k2 = j
        · rw [hk2]
          exact hsw
        · exact hpre k2 hik2 (by omega)
    · next hj =>
      exact hpre k hik (by omega)

/-- The outer pass establishes full sortedness: no adjacent pair of the
result satisfies the swap condition. -/
theorem outerPass_sorted
    (hasym : ∀ a b, gt a b = true → gt b a = false)
    (htrans : ∀ a b c, gt a b = true → gt b c = true → gt a c = true) :
    ∀ (fuel : Nat) (l : List α) (i : Nat), l.length ≤ fuel + i →
      (∀ m k, m < i → m < k → k < l.length → gt (l.getD m d) (l.getD k d) = false) →
      ∀ t, t + 1 < (outerPass gt d fuel l i).length →
        gt ((outerPass gt d fuel l i).getD t d)
          ((outerPass gt d fuel l i).getD (t + 1) d) = false := by
  intro fuel
  induction fuel with
  | zero =>
    intro l i hfu hP t ht
    have ht2 : t + 1 < l.length := ht
    exact hP t (t + 1) (by omega) (by omega) ht2
  | succ fuel ih =>
    intro l i hfu hP t ht
    rw [outerPass] at ht ⊢
    by_cases hi : i < l.length
    · rw [if_pos hi] at ht ⊢
      refine ih (innerPass gt d l.length l i (i + 1)) (i + 1)
        (by rw [innerPass_length]; omega) ?_ t ht
      intro m k hm hmk hk
      rw [innerPass_length] at hk
      by_cases hmi : m = i
      · subst hmi
        exact innerPass_dom gt d hasym htrans l.length l m (m + 1) (by omega) (by omega)
          (fun k2 h1 h2 => absurd h1 (by omega)) k hmk hk
      · have hmlt : m < i := by omega
        have hmf : (innerPass gt d l.length l i (i + 1)).getD m d = l.getD m d :=
          innerPass_frame gt d _ l i (i + 1) m (by omega) hmi
        by_cases hki : k < i
        · have hkf : (innerPass gt d l.length l i (i + 1)).getD k d = l.getD k d :=
            innerPass_frame gt d _ l i (i + 1) k (by omega) (by omega)
          rw [hmf, hkf]
          exact hP m k hmlt hmk hk
        · obtain ⟨q, hiq, hq, he⟩ :=
            innerPass_origin gt d l.length l i (i + 1) k (by omega) (by omega) hk
          rw [hmf, he]
          exact hP m q hmlt (by omega) hq
    · rw [if_neg hi] at ht ⊢
      exact hP t (t + 1) (by omega) (by omega) ht

/-- Every slot of the outer pass result holds some element of the input. -/
theorem outerPass_origin :
    ∀ (fuel : Nat) (l : List α) (i k : Nat), k < l.length →
      ∃ q, q < l.length ∧ (outerPass gt d fuel l i).getD k d = l.getD q d := by
  intro fuel
  induction fuel with
  | zero => intro l i k hk; exact ⟨k, hk, rfl⟩
  | succ fuel ih =>
    intro l i k hk
    rw [outerPass]
    by_cases hi : i < l.length
    · rw [if_pos hi]
      obtain ⟨q, hq, he⟩ := ih (innerPass gt d l.length l i (i + 1)) (i + 1) k
        (by rw [innerPass_length]; exact hk)
      rw [innerPass_length] at hq
      by_cases hqi : q < i
      · have hframe := innerPass_frame gt d l.length l i (i + 1) q (by omega) (by omega)
        exact ⟨q, hq, by rw [he, hframe]⟩
      · obtain ⟨q2, h1, h2, h3⟩ :=
          innerPass_origin gt d l.length l i (i + 1) q (by omega) (by omega) hq
        exact ⟨q2, h2, by rw [he, h3]⟩
    · rw [if_neg hi]
      exact ⟨k, hk, rfl⟩

theorem exchangeSort_length (l : List α) : (exchangeSort gt d l).length = l.length :=
  outerPass_length gt d l.length l 0

theorem exchangeSort_sorted
    (hasym : ∀ a b, gt a b = true → gt b a = false)
    (htrans : ∀ a b c, gt a b = true → gt b c = true → gt a c = true)
    (l : List α) :
    ∀ t, t + 1 < (exchangeSort gt d l).length →
      gt ((exchangeSort gt d l).getD t d) ((exchangeSort gt d l).getD (t + 1) d)
        = false := by
  intro t ht
  exact outerPass_sorted gt d hasym htrans l.length l 0 (by omega)
    (fun m k hm _ _ => absurd hm (by omega)) t ht

theorem exchangeSort_mem {l : List α} {x : α} (h : x ∈ exchangeSort gt d l) : x ∈ l := by
  obtain ⟨k, hk, he⟩ := mem_getD d h
  rw [exchangeSort_length] at hk
  obtain ⟨q, hq, he2⟩ := outerPass_origin gt d l.length l 0 k hk
  rw [show exchangeSort gt d l = outerPass gt d l.length l 0 from rfl, he2] at he
  rw [← he]
  exact getD_mem hq

end ExchangeSortMain

end GoGhPage

namespace GoGhPage

/- The two concrete swap conditions are asymmetric and transitive. -/

theorem goStrLt_asymm : ∀ (a b : List Char), goStrLt a b = true → goStrLt b a = false := by
  intro a
  induction a with
  | nil =>
    intro b h
    cases b with
    | nil => exact absurd h (by simp [goStrLt])
    | cons y bs => rfl
  | cons x as ih =>
    intro b h
    cases b with
    | nil => exact absurd h (by simp [goStrLt])
    | cons y bs =>
      rw [goStrLt] at h ⊢
      by_cases hxy : x < y
      · rw [if_neg (lt_asymm hxy), if_pos hxy]
      · by_cases hyx : y < x
        · rw [if_neg hxy, if_pos hyx] at h
          exact absurd h (by simp)
        · rw [if_neg hxy, if_neg hyx] at h
          rw [if_neg hyx, if_neg hxy]
          exact ih bs h

theorem goStrLt_trans :
    ∀ (a b c : List Char), goStrLt a b = true → goStrLt b c = true →
      goStrLt a c = true := by
  intro a
  induction a with
  | nil =>
    intro b c hab hbc
    cases c with
    | nil =>
      cases b with
      | nil => exact absurd hab (by simp [goStrLt])
      | cons y bs => exact absurd hbc (by simp [goStrLt])
    | cons z cs => rfl
  | cons x as ih =>
    intro b c hab hbc
    cases b with
    | nil => exact absurd hab (by simp [goStrLt])
    | cons y bs =>
      cases c with
      | nil => exact absurd hbc (by simp [goStrLt])
      | cons z cs =>
        rw [goStrLt] at hab hbc ⊢
        by_cases hxy : x < y
        · by_cases hyz : y < z
          · rw [if_pos (lt_trans hxy hyz)]
          · by_cases hzy : z < y
            · rw [if_neg hyz, if_pos hzy] at hbc
              exact absurd hbc (by simp)
            · have hyzeq : y = z := le_antisymm (le_of_not_lt hzy) (le_of_not_lt hyz)
              rw [← hyzeq, if_pos hxy]
        · by_cases hyx : y < x
          · rw [if_neg hxy, if_pos hyx] at hab
            exact absurd hab (by simp)
          · have hxyeq : x = y := le_antisymm (le_of_not_lt hyx) (le_of_not_lt hxy)
            subst hxyeq
            rw [if_neg hxy, if_neg hyx] at hab
            by_cases hxz : x < z
            · rw [if_pos hxz]
            · by_cases hzx : z < x
              · rw [if_neg hxz, if_pos hzx] at hbc
                exact absurd hbc (by simp)
              · rw [if_neg hxz, if_neg hzx] at hbc
                rw [if_neg hxz, if_neg hzx]
                exact ih bs cs hab hbc

theorem docPageGt_asymm :
    ∀ a b : Utils.DocPage, Utils.docPageGt a b = true → Utils.docPageGt b a = false :=
  fun _ _ h => goStrLt_asymm _ _ h

theorem docPageGt_trans :
    ∀ a b c : Utils.DocPage, Utils.docPageGt a b = true → Utils.docPageGt b c = true →
      Utils.docPageGt a c = true :=
  fun _ _ _ hab hbc => goStrLt_trans _ _ _ hbc hab

theorem contributorGt_asymm :
    ∀ a b : Git.Contributor, Git.contributorGt a b = true →
      Git.contributorGt b a = false := by
  intro a b h
  simp [Git.contributorGt] at h ⊢
  omega

theorem contributorGt_trans :
    ∀ a b c : Git.Contributor, Git.contributorGt a b = true →
      Git.contributorGt b c = true → Git.contributorGt a c = true := by
  intro a b c hab hbc
  simp [Git.contributorGt] at hab hbc ⊢
  omega

theorem getD_take {α : Type} :
    ∀ (l : List α) (n t : Nat) (d : α), t < n → (l.take n).getD t d = l.getD t d := by
  intro l
  induction l with
  | nil => intro n t d _; simp
  | cons a tl ih =>
    intro n t d h
    cases n with
    | zero => omega
    | succ n =>
      rw [List.take_succ_cons]
      cases t with
      | zero => rfl
      | succ t =>
        rw [getD_cons_succ, getD_cons_succ]
        exact ih n t d (by omega)

/-- Claim C5: the navigation list built by site generation is sorted by
entry title in ascending byte-order: at every adjacent pair, the second
title is not byte-order smaller than the first. -/
theorem C5_navListSorted (docs : List (String × String)) (t : Nat)
    (ht : t + 1 < (Generator.buildNav docs).length) :
    goStrLt ((Generator.buildNav docs).getD (t + 1) ⟨"", "", false⟩).title.data
      ((Generator.buildNav docs).getD t ⟨"", "", false⟩).title.data = false :=
  exchangeSort_sorted Utils.docPageGt ⟨"", "", false⟩ docPageGt_asymm docPageGt_trans _ t ht

/-- Witness for C5 on a two-document snapshot. -/
theorem C5_navListSorted_witness :
    (0 + 1 < (Generator.buildNav [("b.md", "# B"), ("a.md", "# A")]).length) ∧
      goStrLt
        ((Generator.buildNav [("b.md", "# B"), ("a.md", "# A")]).getD (0 + 1)
          ⟨"", "", false⟩).title.data
        ((Generator.buildNav [("b.md", "# B"), ("a.md", "# A")]).getD 0
          ⟨"", "", false⟩).title.data = false := by
  refine ⟨by decide, ?_⟩
  exact C5_navListSorted [("b.md", "# B"), ("a.md", "# A")] 0 (by decide)

/-- Counterexample to the tie-order part of claim C7: three contributors
with commit counts 2, 2, 3 in first-encountered order a, b, c sort to
c, b, a — the equal-count pair a, b ends up in reversed order, so ties are
not kept in first-encountered order. -/
theorem C7_tieOrder_counterexample :
    Git.topContributors [⟨"a", "a@x", 2, ""⟩, ⟨"b", "b@x", 2, ""⟩, ⟨"c", "c@x", 3, ""⟩]
        = [⟨"c", "c@x", 3, ""⟩, ⟨"b", "b@x", 2, ""⟩, ⟨"a", "a@x", 2, ""⟩] ∧
      ([⟨"c", "c@x", 3, ""⟩, ⟨"b", "b@x", 2, ""⟩, ⟨"a", "a@x", 2, ""⟩]
          : List Git.Contributor)
        ≠ [⟨"c", "c@x", 3, ""⟩, ⟨"a", "a@x", 2, ""⟩, ⟨"b", "b@x", 2, ""⟩] := by
  exact ⟨by decide, by decide⟩

/-- Claim C7 as amended: the contributors sequence handed to the core has
at most 5 entries and is ordered by non-increasing commit count; the
relative order of entries with equal commit counts is unspecified (the
exchange sort does not preserve first-encountered order). -/
theorem C7_contributors_amended (cs : List Git.Contributor) :
    (Git.topContributors cs).length ≤ 5 ∧
      ∀ t, t + 1 < (Git.topContributors cs).length →
        ((Git.topContributors cs).getD (t + 1) ⟨"", "", 0, ""⟩).commits
          ≤ ((Git.topContributors cs).getD t ⟨"", "", 0, ""⟩).commits := by
  have hsorted : ∀ t, t + 1 < (Git.sortContributorsByCommits cs).length →
      Git.contributorGt
        ((Git.sortContributorsByCommits cs).getD t ⟨"", "", 0, ""⟩)
        ((Git.sortContributorsByCommits cs).getD (t + 1) ⟨"", "", 0, ""⟩) = false :=
    exchangeSort_sorted Git.contributorGt ⟨"", "", 0, ""⟩
      contributorGt_asymm contributorGt_trans cs
  constructor
  · rw [Git.topContributors]
    split
    · simp
    · next h5 => simp at h5 ⊢; omega
  · intro t ht
    rw [Git.topContributors] at ht ⊢
    split at ht
    · next h5 =>
      rw [if_pos h5]
      have hlen : t + 1 < (Git.sortContributorsByCommits cs).length := by
        simp [List.length_take] at ht
        omega
      have ht5 : t + 1 < 5 := by
        simp [List.length_take] at ht
        omega
      rw [getD_take (Git.sortContributorsByCommits cs) 5 (t + 1) _ ht5,
        getD_take (Git.sortContributorsByCommits cs) 5 t _ (by omega)]
      have hs := hsorted t hlen
      rw [Git.contributorGt, decide_eq_false_iff_not] at hs
      omega
    · next h5 =>
      rw [if_neg h5]
      have hs := hsorted t ht
      rw [Git.contributorGt, decide_eq_false_iff_not] at hs
      omega

/-- Witness for the amended C7 on three concrete contributors. -/
theorem C7_contributors_amended_witness :
    (Git.topContributors [⟨"a", "a@x", 2, ""⟩, ⟨"b", "b@x", 2, ""⟩,
        ⟨"c", "c@x", 3, ""⟩]).length ≤ 5 ∧
      ((Git.topContributors [⟨"a", "a@x", 2, ""⟩, ⟨"b", "b@x", 2, ""⟩,
          ⟨"c", "c@x", 3, ""⟩]).getD (0 + 1) ⟨"", "", 0, ""⟩).commits
        ≤ ((Git.topContributors [⟨"a", "a@x", 2, ""⟩, ⟨"b", "b@x", 2, ""⟩,
          ⟨"c", "c@x", 3, ""⟩]).getD 0 ⟨"", "", 0, ""⟩).commits := by
  refine ⟨(C7_contributors_amended _).1, ?_⟩
  exact (C7_contributors_amended _).2 0 (by decide)

end GoGhPage

namespace GoGhPage

/- Behaviour of the navigation construction and the per-page active flag. -/

theorem buildNav_inactive {docs : List (String × String)} :
    ∀ e ∈ Generator.buildNav docs, e.isActive = false := by
  intro e he
  have hmem : e ∈ docs.filterMap (fun pc =>
      if Generator.isReadmeFile ⟨goBaseCh pc.1.data⟩ then none
      else some ⟨Generator.titleForDoc pc.1 pc.2, Utils.GetOutputPath pc.1 "docs", false⟩) :=
    exchangeSort_mem Utils.docPageGt ⟨"", "", false⟩ he
  obtain ⟨pc, _, hf⟩ := List.mem_filterMap.1 hmem
  by_cases hr : Generator.isReadmeFile ⟨goBaseCh pc.1.data⟩ = true
  · rw [if_pos hr] at hf
    exact absurd hf (by simp)
  · rw [if_neg hr] at hf
    injection hf with hf
    rw [← hf]

theorem markActive_id {nav : List Utils.DocPage} {p : String}
    (h : ∀ e ∈ nav, ¬ (e.path = p)) : Generator.markActive nav p = nav := by
  induction nav with
  | nil => rfl
  | cons e rest ih =>
    rw [Generator.markActive, List.map_cons,
      if_neg (h e (List.mem_cons_self e rest))]
    rw [Generator.markActive] at ih
    rw [ih fun x hx => h x (List.mem_cons_of_mem e hx)]

theorem countActive_zero {nav : List Utils.DocPage}
    (hall : ∀ e ∈ nav, e.isActive = false) : Generator.countActive nav = 0 := by
  induction nav with
  | nil => rfl
  | cons e rest ih =>
    rw [Generator.countActive, List.filter_cons,
      if_neg (by simp [hall e (List.mem_cons_self e rest)])]
    rw [Generator.countActive] at ih
    exact ih fun x hx => hall x (List.mem_cons_of_mem e hx)

theorem countActive_markActive {nav : List Utils.DocPage} {p : String}
    (hall : ∀ e ∈ nav, e.isActive = false)
    (hnd : (nav.map Utils.DocPage.path).Nodup)
    (hmem : p ∈ nav.map Utils.DocPage.path) :
    Generator.countActive (Generator.markActive nav p) = 1 := by
  induction nav with
  | nil => simp at hmem
  | cons e rest ih =>
    rw [List.map_cons, List.nodup_cons] at hnd
    rw [Generator.markActive, List.map_cons]
    by_cases hep : e.path = p
    · rw [if_pos hep, Generator.countActive, List.filter_cons, if_pos (by simp)]
      have hnone : Generator.markActive rest p = rest := by
        refine markActive_id ?_
        intro x hx hxp
        exact hnd.1 (by rw [← hep] at hxp; rw [← hxp]; exact List.mem_map_of_mem _ hx)
      have hz : Generator.countActive (Generator.markActive rest p) = 0 := by
        rw [hnone]
        exact countActive_zero fun x hx => hall x (List.mem_cons_of_mem e hx)
      rw [Generator.countActive, Generator.markActive] at hz
      rw [List.length_cons, hz]
    · rw [if_neg hep, Generator.countActive, List.filter_cons,
        if_neg (by simp [hall e (List.mem_cons_self e rest)])]
      have hmem2 : p ∈ rest.map Utils.DocPage.path := by
        rw [List.map_cons] at hmem
        rcases List.mem_cons.1 hmem with h | h
        · exact absurd h.symm hep
        · exact h
      have := ih (fun x hx => hall x (List.mem_cons_of_mem e hx)) hnd.2 hmem2
      rw [Generator.countActive] at this
      rw [Generator.markActive] at this
      exact this

theorem markActive_active_path {nav : List Utils.DocPage} {p : String}
    (hall : ∀ e ∈ nav, e.isActive = false) :
    ∀ e ∈ Generator.markActive nav p, e.isActive = true → e.path = p := by
  intro e he hact
  obtain ⟨e0, he0, hf⟩ := List.mem_map.1 he
  by_cases hep : e0.path = p
  · rw [if_pos hep] at hf
    rw [← hf]
    exact hep
  · rw [if_neg hep] at hf
    rw [← hf] at hact
    rw [hall e0 he0] at hact
    exact Bool.noConfusion hact

/-- Counterexample to claim C6: two documents `a.md` and `a.markdown` both
map to the output path `docs/a.html`, so the per-page navigation copy of
the page generated from `a.md` carries two active entries, not exactly
one. -/
theorem C6_navActive_counterexample :
    Generator.countActive (Generator.markActive
        (Generator.buildNav [("a.md", "# T1"), ("a.markdown", "# T2")])
        (Utils.GetOutputPath "a.md" "docs")) = 2 ∧ (2 : Nat) ≠ 1 := by
  exact ⟨by decide, by decide⟩

/-- Claim C6 as amended: provided no two navigation entries share an
output path, the per-page copy for a rendered page (whose output path is
one of the entries) has exactly one active entry, every active entry of
the copy carries the page's own output path, and the canonical list built
by GenerateSite has zero active entries (per-page flagging happens on a
fresh copy, so the canonical value is never modified). -/
theorem C6_navActive_amended (docs : List (String × String)) (p : String)
    (hnd : ((Generator.buildNav docs).map Utils.DocPage.path).Nodup)
    (hmem : p ∈ (Generator.buildNav docs).map Utils.DocPage.path) :
    Generator.countActive (Generator.markActive (Generator.buildNav docs) p) = 1 ∧
      (∀ e ∈ Generator.markActive (Generator.buildNav docs) p,
        e.isActive = true → e.path = p) ∧
      Generator.countActive (Generator.buildNav docs) = 0 := by
  exact ⟨countActive_markActive buildNav_inactive hnd hmem,
    markActive_active_path buildNav_inactive,
    countActive_zero buildNav_inactive⟩

/-- Witness for the amended C6 on a two-document snapshot with distinct
output paths. -/
theorem C6_navActive_amended_witness :
    (((Generator.buildNav [("a.md", "# A"), ("b.md", "# B")]).map
        Utils.DocPage.path).Nodup
      ∧ "docs/a.html" ∈ (Generator.buildNav [("a.md", "# A"), ("b.md", "# B")]).map
        Utils.DocPage.path) ∧
      Generator.countActive (Generator.markActive
        (Generator.buildNav [("a.md", "# A"), ("b.md", "# B")]) "docs/a.html") = 1 ∧
      (∀ e ∈ Generator.markActive
          (Generator.buildNav [("a.md", "# A"), ("b.md", "# B")]) "docs/a.html",
        e.isActive = true → e.path = "docs/a.html") ∧
      Generator.countActive (Generator.buildNav [("a.md", "# A"), ("b.md", "# B")]) = 0 := by
  refine ⟨⟨by decide, by decide⟩, ?_⟩
  exact C6_navActive_amended [("a.md", "# A"), ("b.md", "# B")] "docs/a.html"
    (by decide) (by decide)

/-- Claim C10: a document whose base filename starts case-insensitively
with `readme.` is skipped by site generation: it is not in the generation
list, DocsCount counts only non-README documents, every generated page
derives from a non-README document, and every navigation entry derives
from a non-README document. -/
theorem C10_readmeSkipped (owner repo p c : String) (docs : List (String × String))
    (_hmem : (p, c) ∈ docs)
    (hreadme : Generator.isReadmeFile ⟨goBaseCh p.data⟩ = true) :
    (Generator.generateSiteCore owner repo docs).docsCount
        = (docs.filter
            (fun pc => !(Generator.isReadmeFile ⟨goBaseCh pc.1.data⟩))).length ∧
      (p, c) ∉ docs.filter (fun pc => !(Generator.isReadmeFile ⟨goBaseCh pc.1.data⟩)) ∧
      (∀ out ∈ (Generator.generateSiteCore owner repo docs).pages,
        ∃ q cq, (q, cq) ∈ docs ∧ Generator.isReadmeFile ⟨goBaseCh q.data⟩ = false ∧
          out = Generator.pageFor owner repo q cq) ∧
      (∀ e ∈ (Generator.generateSiteCore owner repo docs).navPages,
        ∃ q cq, (q, cq) ∈ docs ∧ Generator.isReadmeFile ⟨goBaseCh q.data⟩ = false ∧
          e = ⟨Generator.titleForDoc q cq, Utils.GetOutputPath q "docs", false⟩) := by
  refine ⟨rfl, ?_, ?_, ?_⟩
  · intro hin
    have := (List.mem_filter.1 hin).2
    rw [hreadme] at this
    exact Bool.noConfusion this
  · intro out hout
    obtain ⟨pc, hpc, hf⟩ := List.mem_map.1 hout
    have hpc2 := List.mem_filter.1 hpc
    refine ⟨pc.1, pc.2, hpc2.1, by simpa using hpc2.2, ?_⟩
    rw [← hf]
  · intro e he
    have hmem2 : e ∈ docs.filterMap (fun pc =>
        if Generator.isReadmeFile ⟨goBaseCh pc.1.data⟩ then none
        else some ⟨Generator.titleForDoc pc.1 pc.2,
          Utils.GetOutputPath pc.1 "docs", false⟩) :=
      exchangeSort_mem Utils.docPageGt ⟨"", "", false⟩ he
    obtain ⟨pc, hpc, hf⟩ := List.mem_filterMap.1 hmem2
    by_cases hr : Generator.isReadmeFile ⟨goBaseCh pc.1.data⟩ = true
    · rw [if_pos hr] at hf
      exact absurd hf (by simp)
    · rw [if_neg hr] at hf
      injection hf with hf
      exact ⟨pc.1, pc.2, hpc, by simpa using hr, hf.symm⟩

/-- Witness for C10: the snapshot contains the non-overview file
`docs/README.md`, which is skipped. -/
theorem C10_readmeSkipped_witness :
    (("docs/README.md", "# Secret")
        ∈ [("README.md", "# Hi"), ("docs/README.md", "# Secret"), ("a.md", "# A")]
      ∧ Generator.isReadmeFile ⟨goBaseCh ("docs/README.md" : String).data⟩ = true) ∧
      (Generator.generateSiteCore "o" "r"
          [("README.md", "# Hi"), ("docs/README.md", "# Secret"), ("a.md", "# A")]).docsCount
        = ([("README.md", "# Hi"), ("docs/README.md", "# Secret"), ("a.md", "# A")].filter
            (fun pc => !(Generator.isReadmeFile ⟨goBaseCh pc.1.data⟩))).length ∧
      ("docs/README.md", "# Secret")
        ∉ [("README.md", "# Hi"), ("docs/README.md", "# Secret"), ("a.md", "# A")].filter
            (fun pc => !(Generator.isReadmeFile ⟨goBaseCh pc.1.data⟩)) := by
  refine ⟨⟨by decide, by decide⟩, ?_⟩
  have h := C10_readmeSkipped "o" "r" "docs/README.md" "# Secret"
    [("README.md", "# Hi"), ("docs/README.md", "# Secret"), ("a.md", "# A")]
    (by decide) (by decide)
  exact ⟨h.1, h.2.1⟩

end GoGhPage
